import Mathlib

/-!
# A verification model of the QONNX→FINN quantization-to-threshold engine

The repository's own files are a notebook and a Dockerfile that drive an
external graph-IR engine: a graph store for quantized neural-network
computation graphs, an interpreter (`execute`), a quantization-to-threshold
rewrite pass (`convert`), and a cleanup pass pipeline (`run_pipeline`).
The engine code itself is not part of the repository, so every definition
below is modelled from the specification (§3–§8 of the design document):
tensors are flat rational vectors, nodes refer to tensors by name, and all
machine arithmetic is exact rational arithmetic.

Modelling decisions (each recorded at the definition it concerns):
* tensors are one-dimensional rational vectors; a shape is a length;
* quantization parameters are per-tensor scalars (§4.4 tie-breaks: a
  per-tensor scale synthesizes one shared threshold vector broadcast
  across channels, so the shared vector stands for every channel);
* the zero-point is an integer, so that `round(x/s) + z` is an integer
  quantization level as §4.3 requires;
* each operator in the vocabulary used here produces one output tensor.
-/

namespace Spec2Proof

/-- A concrete tensor value: a flat vector of exact rationals.
Modelled from the spec: §6 "tensors cross this boundary as plain typed
multi-dimensional numeric buffers"; floating point is modelled by ℚ. -/
abbrev Value := List ℚ

/-- Modelled from the spec: §3 quantization descriptor, rounding mode
"one of {round-to-nearest-even, floor, ceiling}". -/
inductive RoundMode where
  | roundNearestEven
  | floorMode
  | ceilMode
deriving DecidableEq

/-- Modelled from the spec: §4.4 step 1 distinguishes a statically known
constant bit-width from a dynamic/runtime-computed one (the latter is
referenced through the name of the tensor that would carry it). -/
inductive BitWidth where
  | static (b : Nat)
  | dynamic (tensor : String)
deriving DecidableEq

/-- Modelled from the spec: §3 quantization descriptor attached to
Quant nodes: scale, zero-point, bit-width, signedness flag and rounding
mode.  Scalar (per-tensor) parameters; integer zero-point. -/
structure QuantParams where
  scale : ℚ
  zeroPoint : ℤ
  bw : BitWidth
  signed : Bool
  rm : RoundMode
deriving DecidableEq

/-- Modelled from the spec: §3 operator kinds "drawn from a fixed
vocabulary (identity, arithmetic, shape ops, and the quantization family
{Quant, BipolarQuant, Trunc} plus the target family {MultiThreshold})".
A MultiThreshold node carries the §3 threshold descriptor: one shared
per-channel threshold vector plus `out_scale`/`out_bias`. -/
inductive Op where
  | identityOp
  | addOp
  | quant (p : QuantParams)
  | bipolarQuant (scale : ℚ)
  | multiThreshold (thresholds : List ℚ) (outScale outBias : ℚ)
  | trunc (inBits outBits : Nat)
deriving DecidableEq

/-- Modelled from the spec: §3 node: an operator kind, an ordered list of
input tensor names and an output tensor name (each operator in the
vocabulary modelled here produces a single output). -/
structure Node where
  op : Op
  inputs : List String
  output : String
deriving DecidableEq

/-- Modelled from the spec: §3 graph: an ordered node sequence, the
initializers (constant tensors owned by the graph), the designated graph
inputs (with their declared sizes) and graph outputs, plus the shape
annotations that §4.2 shape inference populates. -/
structure Graph where
  nodes : List Node
  inits : List (String × Value)
  inputs : List (String × Nat)
  outputs : List String
  shapes : List (String × Nat)
deriving DecidableEq

/-- First-match association-list lookup, the name-to-tensor index of the
§4.1 graph store. -/
def lk (k : String) : List (String × α) → Option α
  | [] => none
  | p :: ps => if p.1 = k then some p.2 else lk k ps

/-- Integer range clip: `clipZ lo hi v = min hi (max lo v)`. -/
def clipZ (lo hi v : ℤ) : ℤ := min hi (max lo v)

/-- Modelled from the spec: §4.3 "qmin/qmax derive from bit-width and
signedness" — the smallest representable level. -/
def qminZ (b : Nat) (signed : Bool) : ℤ :=
  if signed then -(2 ^ (b - 1)) else 0

/-- The largest representable quantization level. -/
def qmaxZ (b : Nat) (signed : Bool) : ℤ :=
  if signed then 2 ^ (b - 1) - 1 else 2 ^ b - 1

/-- Round half to even on ℚ (the round-to-nearest-even mode of §3/§4.3). -/
def rne (u : ℚ) : ℤ :=
  if u - ⌊u⌋ < 1/2 then ⌊u⌋
  else if 1/2 < u - ⌊u⌋ then ⌊u⌋ + 1
  else if ⌊u⌋ % 2 = 0 then ⌊u⌋ else ⌊u⌋ + 1

/-- Rounding a rational to an integer under a declared rounding mode. -/
def roundM : RoundMode → ℚ → ℤ
  | .roundNearestEven, u => rne u
  | .floorMode, u => ⌊u⌋
  | .ceilMode, u => ⌈u⌉

/-- Modelled from the spec: §4.3 Quant numeric semantics, per scalar:
`output = clip(round(input/scale) + zero_point, qmin, qmax) * scale −
zero_point*scale` using the node's declared rounding mode. -/
def quantScalar (s : ℚ) (z : ℤ) (b : Nat) (sg : Bool) (rm : RoundMode) (x : ℚ) : ℚ :=
  ((clipZ (qminZ b sg) (qmaxZ b sg) (roundM rm (x / s) + z) : ℤ) : ℚ) * s - (z : ℚ) * s

/-- Modelled from the spec: §4.3 BipolarQuant semantics, per scalar:
`scale * sign(input)` with the fixed tie-break `sign(0) = +1`. -/
def bipolarScalar (s : ℚ) (x : ℚ) : ℚ :=
  s * (if 0 ≤ x then 1 else -1)

/-- Modelled from the spec: §4.3 MultiThreshold semantics, per scalar:
count how many of the channel's thresholds the input meets-or-exceeds,
then map the count through `out_scale`/`out_bias`. -/
def mtScalar (thr : List ℚ) (os ob : ℚ) (x : ℚ) : ℚ :=
  os * (thr.countP (fun t => decide (t ≤ x)) : ℚ) + ob

/-- Modelled from the spec: §4.3 pure per-operator evaluation functions.
Each consumes the bound input tensors (in the node's input order) and
yields the output tensor, or `none` on an arity/operator failure (the
spec's ExecutionError conditions).  A Trunc node's §4.3 semantics
("right-shifts the quantized integer representation") is not defined for
a raw real-valued input, so it is treated as outside the executable
vocabulary here; likewise a Quant node with a dynamic bit-width is out
of scope (§4.4 step 1). -/
def evalOp : Op → List Value → Option Value
  | .identityOp, [v] => some v
  | .addOp, [v, w] => if v.length = w.length then some (List.zipWith (· + ·) v w) else none
  | .quant p, [v] =>
    match p.bw with
    | .static b => some (v.map (quantScalar p.scale p.zeroPoint b p.signed p.rm))
    | .dynamic _ => none
  | .bipolarQuant s, [v] => some (v.map (bipolarScalar s))
  | .multiThreshold thr os ob, [v] => some (v.map (mtScalar thr os ob))
  | _, _ => none

/-- The tensor environment of a run: names bound to concrete values. -/
abbrev Env := List (String × Value)

/-- Resolve a list of tensor names in the environment: all bound, or
`none`. -/
def lkAll (env : Env) : List String → Option (List Value)
  | [] => some []
  | i :: is =>
    match lk i env, lkAll env is with
    | some v, some vs => some (v :: vs)
    | _, _ => none

/-- One interpreter step on one node: if the node's output is not yet
bound and all of its inputs are bound, evaluate it and bind the output
(appending, so existing bindings are never disturbed). -/
def stepNode (env : Env) (n : Node) : Env :=
  if (lk n.output env).isSome then env
  else
    match lkAll env n.inputs with
    | none => env
    | some vals =>
      match evalOp n.op vals with
      | none => env
      | some v => env ++ [(n.output, v)]

/-- One sweep of the interpreter over the node list in order (ties among
independent nodes broken by original insertion order, §4.3). -/
def sweepE (ns : List Node) (env : Env) : Env :=
  ns.foldl stepNode env

/-- `fuel` sweeps of the interpreter. -/
def iterE (fuel : Nat) (ns : List Node) (env : Env) : Env :=
  match fuel with
  | 0 => env
  | f + 1 => sweepE ns (iterE f ns env)

/-- The environment after executing the graph on the given input
bindings: inputs and initializers seed the environment, then as many
sweeps as there are nodes (enough to reach every node of an acyclic
graph in derived topological order, §3/§4.3). -/
def finalEnv (g : Graph) (x : Env) : Env :=
  iterE g.nodes.length g.nodes (x ++ g.inits)

/-- Modelled from the spec: §4.3/§6 execution API
`execute(graph, input bindings) → graph-output values`.  Yields `none`
when a required graph input is missing or has the wrong declared size
(MissingInputError) or when some graph output was never produced (a
cycle, a dangling reference, or an unsupported operator). -/
def execute (g : Graph) (x : Env) : Option (List Value) :=
  if g.inputs.all (fun p => match lk p.1 x with
      | some v => decide (v.length = p.2)
      | none => false) then
    g.outputs.mapM (fun o => lk o (finalEnv g x))
  else none

/-- Modelled from the spec: §7 RewriteError taxonomy: an unsupported
quantization configuration (carrying the offending tensor name) or a
violated post-rewrite invariant. -/
inductive RewriteError where
  | unsupportedQuantConfig (tensor : String)
  | rewriteInvariant
deriving DecidableEq

/-- The §4.4 step 2 midpoint offset for a rounding mode: round-to-nearest
-even → half-step, floor → no offset, ceiling → full-step offset. -/
def modeOffset : RoundMode → ℚ
  | .roundNearestEven => 1/2
  | .floorMode => 0
  | .ceilMode => 1

/-- Modelled from the spec: §4.4 step 2 threshold synthesis for a Quant
node: `2^b − 1` thresholds at `s * (qmin + k − δ) − z*s`, `k = 1..2^b−1`,
with `δ` the rounding-mode offset (`1/2` under round-to-nearest-even). -/
def quantThresholds (s : ℚ) (z : ℤ) (b : Nat) (sg : Bool) (rm : RoundMode) : List ℚ :=
  (List.range (2 ^ b - 1)).map
    (fun k => s * (((qminZ b sg : ℤ) : ℚ) + (k + 1 : ℕ) - modeOffset rm) - (z : ℚ) * s)

/-- Modelled from the spec: §4.4 steps 1–4 on one node.
* A Quant node with a statically known bit-width `b ≥ 1` and a positive
  scale becomes a MultiThreshold node with the synthesized thresholds,
  `out_scale = s` and `out_bias = qmin*s − z*s` (step 3), wired to the
  same input/output tensor names (step 4).
* A dynamic bit-width fails with UnsupportedQuantConfigError (step 1);
  so do `b = 0` and a non-positive scale (§9: configurations the source
  material does not specify — a non-positive scale cannot satisfy the §3
  strictly-increasing threshold invariant — must fail with
  `UnsupportedQuantConfigError` rather than guess a fallback), and a
  standalone Trunc node, whose §4.3 semantics is only defined relative
  to an adjacent quantized tensor.
* A BipolarQuant node becomes a MultiThreshold node with the single
  threshold `0` (§4.4 tie-breaks, bit-width 1).  Its count `c ∈ {0,1}`
  must map through `out_scale*c + out_bias` to `scale*sign(x) ∈ {−s,+s}`
  (§4.4 responsibility / §8 round-trip equivalence), which forces
  `out_scale = 2*s` and `out_bias = −s`; `−s` also equals the step 3
  formula `qmin*s − z*s` with the bipolar level range `qmin = −1, z = 0`.
* Every other node is left untouched. -/
def convertNode (n : Node) : Except RewriteError Node :=
  match n.op with
  | .quant p =>
    match p.bw with
    | .dynamic _ => .error (.unsupportedQuantConfig n.output)
    | .static b =>
      if 1 ≤ b ∧ 0 < p.scale then
        .ok { n with
              op := Op.multiThreshold
                      (quantThresholds p.scale p.zeroPoint b p.signed p.rm)
                      p.scale
                      (((qminZ b p.signed : ℤ) : ℚ) * p.scale
                        - (p.zeroPoint : ℚ) * p.scale) }
      else .error (.unsupportedQuantConfig n.output)
  | .bipolarQuant s =>
    .ok { n with op := .multiThreshold [0] (2 * s) (-s) }
  | .trunc _ _ => .error (.unsupportedQuantConfig n.output)
  | _ => .ok n

/-- Modelled from the spec: §4.2 shape inference as a pure fueled
propagation: shapes of initializers and declared graph inputs seed the
state; a node whose needed input shapes are known contributes its output
shape (elementwise and quantization operators preserve their data
input's shape; Add requires equal input shapes). -/
def shapeOf (op : Op) (ins : List (Option Nat)) : Option Nat :=
  match op, ins with
  | .addOp, [some a, some b] => if a = b then some a else none
  | .addOp, _ => none
  | _, (some a :: _) => some a
  | _, _ => none

/-- One shape-propagation step: append the newly derivable output shapes. -/
def stepShape (ns : List Node) (st : List (String × Nat)) : List (String × Nat) :=
  st ++ ns.filterMap (fun n =>
    if (lk n.output st).isSome then none
    else match shapeOf n.op (n.inputs.map (fun i => lk i st)) with
      | some k => some (n.output, k)
      | none => none)

/-- Fueled shape propagation to a fixed point. -/
def iterShape (fuel : Nat) (ns : List Node) (st : List (String × Nat)) : List (String × Nat) :=
  match fuel with
  | 0 => st
  | f + 1 => iterShape f ns (stepShape ns st)

/-- Modelled from the spec: §4.2 `infer`'s computed shape map: seeded by
initializer and declared input shapes, propagated through the nodes. -/
def computeShapes (g : Graph) : List (String × Nat) :=
  iterShape g.nodes.length g.nodes (g.inits.map (fun p => (p.1, p.2.length)) ++ g.inputs)

/-- Node-by-node conversion of a node list, stopping at the first
unsupported configuration. -/
def convertNodes : List Node → Except RewriteError (List Node)
  | [] => .ok []
  | n :: ns =>
    match convertNode n with
    | .error e => .error e
    | .ok n' =>
      match convertNodes ns with
      | .error e => .error e
      | .ok ns' => .ok (n' :: ns')

/-- Modelled from the spec: §4.4 whole-graph rewrite: convert every node
(steps 1–4), then re-run shape inference and fail with
`RewriteInvariantError` if the rewritten graph's inferred shapes differ
from the original's (step 6).  The rewrite is a pure function: it builds
a new graph and commits nothing on failure (§7 transactional
discipline). -/
def convert (g : Graph) : Except RewriteError Graph :=
  match convertNodes g.nodes with
  | .error e => .error e
  | .ok ns =>
    if computeShapes { g with nodes := ns } = computeShapes g
    then .ok { g with nodes := ns }
    else .error .rewriteInvariant

/-- The graph a caller is left with after attempting the rewrite: the
rewritten graph on success, the untouched original on failure (§7: the
rewrite pass operates on a working copy and only commits on full
success). -/
def convertCommit (g : Graph) : Graph :=
  match convert g with
  | .ok g' => g'
  | .error _ => g

/-- Convenience: the result of a successful conversion (the graph itself
if the conversion failed). -/
def convertD (g : Graph) : Graph := (convert g).toOption.getD g

instance : DecidableEq (Except RewriteError Graph) := fun a b =>
  match a, b with
  | .ok x, .ok y =>
    if h : x = y then .isTrue (by rw [h]) else .isFalse (by simp [h])
  | .error e, .error e' =>
    if h : e = e' then .isTrue (by rw [h]) else .isFalse (by simp [h])
  | .ok _, .error _ => .isFalse (by simp)
  | .error _, .ok _ => .isFalse (by simp)

/-- The elementwise closeness tolerance the validation chain uses
(`np.isclose` with its default `rtol = 1e-5`, `atol = 1e-8`), over exact
rationals. -/
def ratClose (a b : ℚ) : Prop :=
  |a - b| ≤ 1 / 100000000 + (1 / 100000) * |b|

instance (a b : ℚ) : Decidable (ratClose a b) := by
  unfold ratClose; infer_instance

/-! ## Round-to-nearest-even and the threshold-count arithmetic -/

theorem rne_bounds (u : ℚ) : u - 1/2 ≤ (rne u : ℚ) ∧ (rne u : ℚ) ≤ u + 1/2 := by
  have h1 : (⌊u⌋ : ℚ) ≤ u := Int.floor_le u
  have h2 : u < ⌊u⌋ + 1 := Int.lt_floor_add_one u
  unfold rne
  split_ifs with ha hb hc <;> constructor <;> push_cast <;> linarith

/-- The interval characterization of each rounding mode at a non-tie
point: the rounded value reaches level `m` exactly when the real input
reaches the §4.4 step 2 threshold offset for that mode. -/
theorem roundM_ge_iff (rm : RoundMode) (m : ℤ) (y : ℚ)
    (hy : y ≠ (m : ℚ) - modeOffset rm) :
    ((m : ℚ) - modeOffset rm ≤ y ↔ m ≤ roundM rm y) := by
  cases rm with
  | roundNearestEven =>
    simp only [roundM, modeOffset] at hy ⊢
    obtain ⟨hlo, hhi⟩ := rne_bounds y
    constructor
    · intro h
      have h' : (m : ℚ) - 1/2 < y := lt_of_le_of_ne h (fun hEq => hy hEq.symm)
      have hq : ((m - 1 : ℤ) : ℚ) < (rne y : ℚ) := by push_cast; linarith
      have := Int.cast_lt.mp hq
      omega
    · intro h
      have : ((m : ℤ) : ℚ) ≤ (rne y : ℚ) := by exact_mod_cast h
      linarith
  | floorMode =>
    simp only [roundM, modeOffset, sub_zero]
    exact (Int.le_floor).symm
  | ceilMode =>
    simp only [roundM, modeOffset] at hy ⊢
    constructor
    · intro h
      have h' : (m : ℚ) - 1 < y := lt_of_le_of_ne h (fun hEq => hy hEq.symm)
      have hq : ((m - 1 : ℤ) : ℚ) < y := by push_cast; linarith
      have := Int.lt_ceil.mpr hq
      omega
    · intro h
      have h' : (m - 1 : ℤ) < ⌈y⌉ := by omega
      have := Int.lt_ceil.mp h'
      push_cast at this
      linarith

theorem countP_range_le (K : ℕ) (A R : ℤ) :
    (((List.range K).countP (fun (i : ℕ) => decide (A + (i : ℤ) + 1 ≤ R))) : ℤ)
      = min (K : ℤ) (max 0 (R - A)) := by
  induction K with
  | zero => simp
  | succ k ih =>
    rw [List.range_succ, List.countP_append]
    have hsingle : List.countP (fun (i : ℕ) => decide (A + (i : ℤ) + 1 ≤ R)) [k]
        = if A + (k : ℤ) + 1 ≤ R then 1 else 0 := by
      by_cases h : A + (k : ℤ) + 1 ≤ R <;> simp [h]
    rw [hsingle]
    by_cases h : A + (k : ℤ) + 1 ≤ R
    · rw [if_pos h]
      push_cast
      push_cast at ih
      omega
    · rw [if_neg h]
      push_cast
      push_cast at ih
      omega

theorem qmax_sub_qmin (b : ℕ) (sg : Bool) (hb : 1 ≤ b) :
    qmaxZ b sg = qminZ b sg + (2 ^ b - 1) := by
  cases sg with
  | false => simp [qmaxZ, qminZ]
  | true =>
    simp only [qmaxZ, qminZ, if_true]
    have hb' : b - 1 + 1 = b := by omega
    have : (2 : ℤ) ^ b = 2 ^ (b - 1) * 2 := by
      rw [← pow_succ, hb']
    rw [this]; ring

theorem two_pow_sub_one_cast (b : ℕ) :
    (((2 ^ b - 1 : ℕ) : ℤ)) = 2 ^ b - 1 := by
  have : 1 ≤ 2 ^ b := Nat.one_le_two_pow
  push_cast [this]
  ring

/-- The algebraic form of the `k`-th synthesized threshold. -/
theorem thr_elem (s : ℚ) (z : ℤ) (b : ℕ) (sg : Bool) (rm : RoundMode) (i : ℕ) :
    s * (((qminZ b sg : ℤ) : ℚ) + ((i + 1 : ℕ) : ℚ) - modeOffset rm) - (z : ℚ) * s
      = (((qminZ b sg + (i : ℤ) + 1 - z : ℤ) : ℚ) - modeOffset rm) * s := by
  push_cast; ring

/-- Indicator equivalence at a non-tie input: the `i`-th threshold is
met-or-exceeded exactly when the rounded, shifted level reaches
`qmin + i + 1`. -/
theorem thr_le_iff (s : ℚ) (z : ℤ) (b : ℕ) (sg : Bool) (rm : RoundMode)
    (hs : 0 < s) (i : ℕ) (x : ℚ)
    (hne : x ≠ s * (((qminZ b sg : ℤ) : ℚ) + ((i + 1 : ℕ) : ℚ) - modeOffset rm)
            - (z : ℚ) * s) :
    (s * (((qminZ b sg : ℤ) : ℚ) + ((i + 1 : ℕ) : ℚ) - modeOffset rm) - (z : ℚ) * s ≤ x)
      ↔ (qminZ b sg + (i : ℤ) + 1 ≤ roundM rm (x / s) + z) := by
  rw [thr_elem] at hne ⊢
  have h1 : ((((qminZ b sg + (i : ℤ) + 1 - z : ℤ) : ℚ) - modeOffset rm) * s ≤ x)
      ↔ (((qminZ b sg + (i : ℤ) + 1 - z : ℤ) : ℚ) - modeOffset rm ≤ x / s) :=
    (le_div_iff₀ hs).symm
  have h2 : x / s ≠ (((qminZ b sg + (i : ℤ) + 1 - z : ℤ) : ℚ)) - modeOffset rm := by
    intro hEq
    apply hne
    rw [← hEq]
    field_simp
  rw [h1, roundM_ge_iff rm _ _ h2]
  omega

/-- Core scalar equivalence of §4.4: away from the synthesized
thresholds, the MultiThreshold replacement of a Quant node computes
exactly the Quant semantics, for every rounding mode. -/
theorem mt_eq_quant_scalar (s : ℚ) (z : ℤ) (b : ℕ) (sg : Bool) (rm : RoundMode)
    (hb : 1 ≤ b) (hs : 0 < s) (x : ℚ)
    (hx : ∀ t ∈ quantThresholds s z b sg rm, x ≠ t) :
    mtScalar (quantThresholds s z b sg rm) s
        (((qminZ b sg : ℤ) : ℚ) * s - (z : ℚ) * s) x
      = quantScalar s z b sg rm x := by
  have hmap : (quantThresholds s z b sg rm).countP (fun t => decide (t ≤ x))
      = (List.range (2 ^ b - 1)).countP
          (fun (i : ℕ) => decide (qminZ b sg + (i : ℤ) + 1 ≤ roundM rm (x / s) + z)) := by
    unfold quantThresholds
    rw [List.countP_map]
    apply List.countP_congr
    intro i hi
    simp only [Function.comp, decide_eq_true_eq]
    apply thr_le_iff s z b sg rm hs i x
    apply hx
    unfold quantThresholds
    exact List.mem_map.mpr ⟨i, hi, rfl⟩
  have hcount := countP_range_le (2 ^ b - 1) (qminZ b sg) (roundM rm (x / s) + z)
  have hclip : ((List.range (2 ^ b - 1)).countP
      (fun (i : ℕ) => decide (qminZ b sg + (i : ℤ) + 1 ≤ roundM rm (x / s) + z)) : ℤ)
        + qminZ b sg
      = clipZ (qminZ b sg) (qmaxZ b sg) (roundM rm (x / s) + z) := by
    rw [hcount, clipZ, qmax_sub_qmin b sg hb, two_pow_sub_one_cast b]
    omega
  unfold mtScalar quantScalar
  rw [hmap]
  have hq : ((((List.range (2 ^ b - 1)).countP
      (fun (i : ℕ) => decide (qminZ b sg + (i : ℤ) + 1 ≤ roundM rm (x / s) + z)) : ℤ)
        + qminZ b sg : ℤ) : ℚ)
      = ((clipZ (qminZ b sg) (qmaxZ b sg) (roundM rm (x / s) + z) : ℤ) : ℚ) := by
    exact_mod_cast congrArg (fun t : ℤ => (t : ℚ)) hclip
  push_cast at hq
  linear_combination (s) * hq

/-! ## Concrete graphs and structural facts about `convert` -/

/-- The one-node graph used throughout: one operator between the graph
input `global_in` (the input name the validation chain binds) and the
graph output `global_out`, with a declared input size. -/
def single (op : Op) (k : Nat) : Graph :=
  { nodes := [{ op := op, inputs := ["global_in"], output := "global_out" }],
    inits := [], inputs := [("global_in", k)], outputs := ["global_out"], shapes := [] }

/-- Executing a one-node graph reduces to the node's evaluation
function. -/
theorem execute_single (op : Op) (v : Value) :
    execute (single op v.length) [("global_in", v)]
      = (evalOp op [v]).map (fun w => [w]) := by
  cases h : evalOp op [v] with
  | none =>
    simp [execute, single, finalEnv, iterE, sweepE, stepNode, lk, lkAll, List.mapM,
      List.mapM.loop, h]
  | some w =>
    simp [execute, single, finalEnv, iterE, sweepE, stepNode, lk, lkAll, List.mapM,
      List.mapM.loop, h]

/-- A successful `convertNodes` run pairs every node with its converted
form. -/
theorem convertNodes_forall₂ (l l' : List Node) (h : convertNodes l = .ok l') :
    List.Forall₂ (fun n n' => convertNode n = .ok n') l l' := by
  induction l generalizing l' with
  | nil =>
    unfold convertNodes at h
    cases h
    exact List.Forall₂.nil
  | cons n ns ih =>
    unfold convertNodes at h
    cases hc : convertNode n with
    | error e => rw [hc] at h; cases h
    | ok n' =>
      rw [hc] at h
      cases hcs : convertNodes ns with
      | error e => rw [hcs] at h; cases h
      | ok ns' =>
        rw [hcs] at h
        cases h
        exact List.Forall₂.cons hc (ih ns' hcs)

/-- Destructing a successful whole-graph conversion. -/
theorem convert_ok_elim (g g' : Graph) (h : convert g = .ok g') :
    convertNodes g.nodes = .ok g'.nodes
      ∧ g' = { g with nodes := g'.nodes } := by
  unfold convert at h
  split at h
  · cases h
  · rename_i ns heq
    split at h
    · cases h
      exact ⟨heq, rfl⟩
    · cases h

/-- The synthesized thresholds of a Quant node are strictly increasing
(adjacent thresholds differ by the positive scale `s`). -/
theorem quantThresholds_chain (s : ℚ) (z : ℤ) (b : ℕ) (sg : Bool) (rm : RoundMode)
    (hs : 0 < s) : List.Chain' (· < ·) (quantThresholds s z b sg rm) := by
  unfold quantThresholds
  rw [List.chain'_map]
  rcases Nat.eq_zero_or_pos (2 ^ b - 1) with h0 | hpos
  · rw [h0]; simp
  · obtain ⟨K, hK⟩ : ∃ K, 2 ^ b - 1 = K + 1 := ⟨2 ^ b - 1 - 1, by omega⟩
    rw [hK]
    refine (List.chain'_range_succ _ _).mpr (fun m hm => ?_)
    have hdiff : (s * (((qminZ b sg : ℤ) : ℚ) + ((m + 1 + 1 : ℕ) : ℚ) - modeOffset rm)
          - (z : ℚ) * s)
        - (s * (((qminZ b sg : ℤ) : ℚ) + ((m + 1 : ℕ) : ℚ) - modeOffset rm)
          - (z : ℚ) * s) = s := by
      push_cast
      ring
    have := hs
    linarith [hdiff]

/-- The number of synthesized thresholds. -/
theorem quantThresholds_length (s : ℚ) (z : ℤ) (b : ℕ) (sg : Bool) (rm : RoundMode) :
    (quantThresholds s z b sg rm).length = 2 ^ b - 1 := by
  unfold quantThresholds
  rw [List.length_map, List.length_range]

/-- Successful conversion of a graph whose node list converts and whose
inferred shapes are preserved. -/
theorem convert_eq_ok (g : Graph) (ns : List Node)
    (h : convertNodes g.nodes = .ok ns)
    (hsh : computeShapes { g with nodes := ns } = computeShapes g) :
    convert g = .ok { g with nodes := ns } := by
  unfold convert
  simp only [h]
  rw [if_pos hsh]

/-- The §8 scenario graph: a single 2-bit unsigned Quant node with
`scale = 1`, `zero_point = 0`, round-to-nearest-even, on vectors of
size 4. -/
def quantEx2b : Graph :=
  single (.quant ⟨1, 0, .static 2, false, .roundNearestEven⟩) 4

/-- What `convert` produces for `quantEx2b`: a MultiThreshold node with
thresholds `[0.5, 1.5, 2.5]`, `out_scale = 1`, `out_bias = 0`. -/
def quantEx2bConv : Graph :=
  single (.multiThreshold [1/2, 3/2, 5/2] 1 0) 4

/-- The §8 scenario graph: a single BipolarQuant node with
`scale = 0.5` on vectors of size 3. -/
def bipolarEx : Graph := single (.bipolarQuant (1/2)) 3

/-- What `convert` produces for `bipolarEx`: one threshold `[0]`,
`out_scale = 2·0.5 = 1`, `out_bias = −0.5`. -/
def bipolarExConv : Graph := single (.multiThreshold [0] 1 (-(1/2))) 3

/-- A graph whose second Quant node has a runtime-computed bit-width
(carried by tensor `bwt`), after a perfectly convertible first node. -/
def dynQuantEx : Graph :=
  { nodes := [
      { op := .quant ⟨1, 0, .static 2, false, .roundNearestEven⟩,
        inputs := ["global_in"], output := "mid" },
      { op := .quant ⟨1, 0, .dynamic "bwt", false, .roundNearestEven⟩,
        inputs := ["mid", "bwt"], output := "global_out" }],
    inits := [("bwt", [2])],
    inputs := [("global_in", 1)], outputs := ["global_out"], shapes := [] }

/-- A graph that already contains a MultiThreshold node whose thresholds
`[1, 0]` are not strictly increasing (representable: the §3 descriptor
invariants are checked by passes, not enforced by the data model). -/
def mtBadEx : Graph := single (.multiThreshold [1, 0] 1 0) 1

/-! Concrete evaluations of the scenario graphs (rational arithmetic is
evaluated by `norm_num`, since `Rat` operations do not reduce under the
elaborator's definitional unfolding). -/

set_option maxRecDepth 8000 in
theorem exec_quantEx2b_pre :
    execute quantEx2b [("global_in", [2/5, 8/5, 29/10, 31/10])]
      = some [[0, 2, 3, 3]] := by
  norm_num [execute, quantEx2b, single, finalEnv, iterE, sweepE, stepNode, lk, lkAll, evalOp,
    quantScalar, clipZ, qminZ, qmaxZ, roundM, rne, List.mapM, List.mapM.loop]
  simp

set_option maxRecDepth 8000 in
theorem convert_quantEx2b : convert quantEx2b = .ok quantEx2bConv := by
  norm_num [convert, convertNodes, convertNode, quantEx2b, quantEx2bConv, single,
    quantThresholds, computeShapes, iterShape, stepShape, shapeOf, lk, modeOffset,
    qminZ, List.range, List.range.loop, List.filterMap_cons, List.filterMap_nil]
  try simp

set_option maxRecDepth 8000 in
theorem exec_quantEx2b_post :
    execute quantEx2bConv [("global_in", [2/5, 8/5, 29/10, 31/10])]
      = some [[0, 2, 3, 3]] := by
  norm_num [execute, quantEx2bConv, single, finalEnv, iterE, sweepE, stepNode, lk, lkAll,
    evalOp, mtScalar, List.countP_cons, List.countP_nil, List.mapM, List.mapM.loop]
  simp

set_option maxRecDepth 8000 in
theorem exec_bipolarEx_pre :
    execute bipolarEx [("global_in", [-(16/5), 0, 41/10])]
      = some [[-(1/2), 1/2, 1/2]] := by
  norm_num [execute, bipolarEx, single, finalEnv, iterE, sweepE, stepNode, lk, lkAll, evalOp,
    bipolarScalar, List.mapM, List.mapM.loop]
  simp

set_option maxRecDepth 8000 in
theorem convert_bipolarEx : convert bipolarEx = .ok bipolarExConv := by
  norm_num [convert, convertNodes, convertNode, bipolarEx, bipolarExConv, single,
    computeShapes, iterShape, stepShape, shapeOf, lk,
    List.filterMap_cons, List.filterMap_nil]
  try simp

set_option maxRecDepth 8000 in
theorem exec_bipolarEx_post :
    execute bipolarExConv [("global_in", [-(16/5), 0, 41/10])]
      = some [[-(1/2), 1/2, 1/2]] := by
  norm_num [execute, bipolarExConv, single, finalEnv, iterE, sweepE, stepNode, lk, lkAll,
    evalOp, mtScalar, List.countP_cons, List.countP_nil, List.mapM, List.mapM.loop]
  simp

set_option maxRecDepth 8000 in
theorem convert_dynQuantEx :
    convert dynQuantEx = .error (.unsupportedQuantConfig "global_out") := by
  norm_num [convert, convertNodes, convertNode, dynQuantEx]

set_option maxRecDepth 8000 in
theorem convert_mtBadEx : convert mtBadEx = .ok mtBadEx := by
  norm_num [convert, convertNodes, convertNode, mtBadEx, single,
    computeShapes, iterShape, stepShape, shapeOf, lk,
    List.filterMap_cons, List.filterMap_nil]
  try simp

set_option maxRecDepth 8000 in
theorem convert_bipolar2 :
    convert (single (.bipolarQuant 2) 1) = .ok (single (.multiThreshold [0] 4 (-2)) 1) := by
  norm_num [convert, convertNodes, convertNode, single,
    computeShapes, iterShape, stepShape, shapeOf, lk,
    List.filterMap_cons, List.filterMap_nil]
  try simp

/-! ## C2: Quant interpreter semantics and the 2-bit scenario -/

/-- C2.  The interpreter evaluates a Quant node as
`clip(round(input/scale) + zero_point, qmin, qmax) * scale − zero_point*scale`
under the declared rounding mode, with `qmin/qmax` derived from
bit-width and signedness; and the graph with a single 2-bit unsigned
Quant node (`scale = 1`, `zero_point = 0`) fed `[0.4, 1.6, 2.9, 3.1]`
executes to `[0.0, 2.0, 3.0, 3.0]` both before and after `convert`. -/
theorem c2_quant_semantics :
    (∀ (s : ℚ) (z : ℤ) (b : ℕ) (sg : Bool) (rm : RoundMode) (v : Value),
      execute (single (.quant ⟨s, z, .static b, sg, rm⟩) v.length) [("global_in", v)]
        = some [v.map (fun x =>
            ((clipZ (qminZ b sg) (qmaxZ b sg) (roundM rm (x / s) + z) : ℤ) : ℚ) * s
              - (z : ℚ) * s)])
    ∧ execute quantEx2b [("global_in", [2/5, 8/5, 29/10, 31/10])]
        = some [[0, 2, 3, 3]]
    ∧ convert quantEx2b = .ok quantEx2bConv
    ∧ execute quantEx2bConv [("global_in", [2/5, 8/5, 29/10, 31/10])]
        = some [[0, 2, 3, 3]] := by
  refine ⟨fun s z b sg rm v => ?_, exec_quantEx2b_pre, convert_quantEx2b,
    exec_quantEx2b_post⟩
  rw [execute_single]
  rfl

/-! ## C3: BipolarQuant interpreter semantics and its conversion -/

/-- C3 (amended).  The interpreter evaluates a BipolarQuant node as
`scale * sign(input)` with `sign(0) = +1`; the graph with one
BipolarQuant node (`scale = 0.5`) fed `[-3.2, 0.0, 4.1]` executes to
`[-0.5, 0.5, 0.5]` both before and after `convert`; and `convert`
produces for it a MultiThreshold node with one threshold `[0]` per
channel, `out_bias = -0.5`, and `out_scale = 1.0` (that is `2·scale` —
not `scale`, which could not reproduce the `+0.5` output). -/
theorem c3_bipolar_semantics :
    (∀ (s : ℚ) (v : Value),
      execute (single (.bipolarQuant s) v.length) [("global_in", v)]
        = some [v.map (fun x => s * (if 0 ≤ x then 1 else -1))])
    ∧ execute bipolarEx [("global_in", [-(16/5), 0, 41/10])]
        = some [[-(1/2), 1/2, 1/2]]
    ∧ convert bipolarEx = .ok bipolarExConv
    ∧ bipolarExConv.nodes.map Node.op = [.multiThreshold [0] (2 * (1/2)) (-(1/2))]
    ∧ execute bipolarExConv [("global_in", [-(16/5), 0, 41/10])]
        = some [[-(1/2), 1/2, 1/2]] := by
  refine ⟨fun s v => ?_, exec_bipolarEx_pre, convert_bipolarEx,
    by norm_num [bipolarExConv, single], exec_bipolarEx_post⟩
  rw [execute_single]
  rfl

/-- C3, counterexample to the claim as stated: `convert` gives the
MultiThreshold node replacing the `scale = 0.5` BipolarQuant node an
`out_scale` of `1`, not `0.5`; and an `out_scale` of `0.5` (with
`out_bias = -0.5`) would map the input `4.1` to `0`, which is not close
to the required `0.5`. -/
theorem c3_counterexample :
    convert bipolarEx = .ok bipolarExConv
    ∧ bipolarExConv.nodes.map Node.op = [.multiThreshold [0] 1 (-(1/2))]
    ∧ (1 : ℚ) ≠ 1/2
    ∧ evalOp (.multiThreshold [0] (1/2) (-(1/2))) [[41/10]] = some [0]
    ∧ ¬ ratClose 0 (1/2) := by
  refine ⟨convert_bipolarEx, rfl, by norm_num, ?_, ?_⟩
  · norm_num [evalOp, mtScalar, List.countP_cons, List.countP_nil]
  · unfold ratClose
    rw [show (0:ℚ) - 1/2 = -(1/2) by norm_num, abs_neg,
      abs_of_nonneg (by norm_num : (0:ℚ) ≤ 1/2)]
    norm_num

/-! ## C4: the synthesized threshold positions and output mapping -/

/-- C4 (amended).  For a Quant node with statically known bit-width
`b ≥ 1`, positive scale `s` and zero-point `z` under
round-to-nearest-even, `convert` synthesizes exactly `2^b − 1`
thresholds per channel at `s * (qmin + k − 0.5) − z*s` for
`k = 1..2^b−1`, with `out_scale = s` and (in particular for signed
ranges) `out_bias = qmin*s − z*s`; for bit-width 1 with BipolarQuant it
synthesizes exactly one threshold per channel at `0`, with
`out_bias = −s` and `out_scale = 2·s` (not `s`, which could not invert
the count-to-level mapping). -/
theorem c4_threshold_synthesis (s : ℚ) (z : ℤ) (b : ℕ) (sg : Bool) (k : ℕ)
    (hb : 1 ≤ b) (hs : 0 < s) :
    convert (single (.quant ⟨s, z, .static b, sg, .roundNearestEven⟩) k)
      = .ok (single (.multiThreshold
          ((List.range (2 ^ b - 1)).map (fun j =>
            s * (((qminZ b sg : ℤ) : ℚ) + ((j + 1 : ℕ) : ℚ) - 1/2) - (z : ℚ) * s))
          s
          (((qminZ b sg : ℤ) : ℚ) * s - (z : ℚ) * s)) k)
    ∧ (sg = true → (qminZ b sg : ℤ) = -(2 ^ (b - 1)))
    ∧ convert (single (.bipolarQuant s) k)
        = .ok (single (.multiThreshold [0] (2 * s) (-s)) k) := by
  refine ⟨?_, fun hsg => by rw [hsg]; rfl, ?_⟩
  · have h1 : convertNodes (single (.quant ⟨s, z, .static b, sg, .roundNearestEven⟩) k).nodes
        = .ok [(⟨.multiThreshold
                  (quantThresholds s z b sg .roundNearestEven) s
                  (((qminZ b sg : ℤ) : ℚ) * s - (z : ℚ) * s),
                ["global_in"], "global_out"⟩ : Node)] := by
      show convertNodes [_] = _
      unfold convertNodes convertNode
      simp only []
      rw [if_pos ⟨hb, hs⟩]
      rfl
    have := convert_eq_ok (single (.quant ⟨s, z, .static b, sg, .roundNearestEven⟩) k)
      _ h1 rfl
    exact this
  · have h1 : convertNodes (single (.bipolarQuant s) k).nodes
        = .ok [(⟨.multiThreshold [0] (2 * s) (-s),
                ["global_in"], "global_out"⟩ : Node)] := by
      rfl
    exact convert_eq_ok (single (.bipolarQuant s) k) _ h1 rfl

/-- C4, witness: the synthesis theorem applied at `b = 2`, `s = 1`,
`z = 0`, unsigned, size 4. -/
theorem c4_threshold_synthesis_witness :
    convert (single (.quant ⟨1, 0, .static 2, false, .roundNearestEven⟩) 4)
      = .ok (single (.multiThreshold
          ((List.range (2 ^ 2 - 1)).map (fun j =>
            1 * (((qminZ 2 false : ℤ) : ℚ) + ((j + 1 : ℕ) : ℚ) - 1/2) - ((0 : ℤ) : ℚ) * 1))
          1
          (((qminZ 2 false : ℤ) : ℚ) * 1 - ((0 : ℤ) : ℚ) * 1)) 4) :=
  (c4_threshold_synthesis 1 0 2 false 4 (by decide) one_pos).1

/-- C4, counterexample to the claim as stated: the claim's "sets
`out_scale = s`" fails on bit-width-1 BipolarQuant nodes: at `s = 2`
the synthesized MultiThreshold node carries `out_scale = 4`. -/
theorem c4_counterexample :
    convert (single (.bipolarQuant 2) 1)
      = .ok (single (.multiThreshold [0] 4 (-2)) 1)
    ∧ (4 : ℚ) ≠ 2 := by
  exact ⟨convert_bipolar2, by norm_num⟩

/-! ## C5: no Quant nodes survive; threshold count and monotonicity -/

/-- No Quant or BipolarQuant operator. -/
def NoQuantOps (g : Graph) : Prop :=
  ∀ n ∈ g.nodes, (∀ p, n.op ≠ .quant p) ∧ (∀ s, n.op ≠ .bipolarQuant s)

/-- The per-node threshold invariant: a converted Quant node of
bit-width `b` carries exactly `2^b − 1` strictly increasing thresholds;
a converted BipolarQuant node carries exactly `2^1 − 1 = 1`. -/
def ThresholdInvariant (n n' : Node) : Prop :=
  (∀ p b, n.op = .quant p → p.bw = .static b →
    ∃ thr os ob, n'.op = .multiThreshold thr os ob
      ∧ thr.length = 2 ^ b - 1 ∧ List.Chain' (· < ·) thr)
  ∧ (∀ s, n.op = .bipolarQuant s →
    ∃ thr os ob, n'.op = .multiThreshold thr os ob
      ∧ thr.length = 2 ^ 1 - 1 ∧ List.Chain' (· < ·) thr)

theorem convertNode_no_quant (n n' : Node) (h : convertNode n = .ok n') :
    (∀ p, n'.op ≠ .quant p) ∧ (∀ s, n'.op ≠ .bipolarQuant s) := by
  unfold convertNode at h
  cases hop : n.op <;> simp only [hop] at h
  case identityOp => cases h; rw [hop]; exact ⟨fun p => by simp, fun s => by simp⟩
  case addOp => cases h; rw [hop]; exact ⟨fun p => by simp, fun s => by simp⟩
  case quant p =>
    cases hbw : p.bw <;> simp only [hbw] at h
    case static b =>
      split at h
      · cases h; exact ⟨fun p => by simp, fun s => by simp⟩
      · cases h
    case dynamic t => cases h
  case bipolarQuant s => cases h; exact ⟨fun p => by simp, fun s => by simp⟩
  case multiThreshold thr os ob =>
    cases h; rw [hop]; exact ⟨fun p => by simp, fun s => by simp⟩
  case trunc a c => cases h

theorem convertNode_invariant (n n' : Node) (h : convertNode n = .ok n') :
    ThresholdInvariant n n' := by
  constructor
  · intro p b hp hbw
    unfold convertNode at h
    simp only [hp] at h
    simp only [hbw] at h
    split at h
    · rename_i hcond
      cases h
      exact ⟨_, _, _, rfl, quantThresholds_length _ _ _ _ _,
        quantThresholds_chain _ _ _ _ _ hcond.2⟩
    · cases h
  · intro s hp
    unfold convertNode at h
    simp only [hp] at h
    cases h
    exact ⟨_, _, _, rfl, rfl, List.chain'_singleton 0⟩

theorem forall₂_mem_right {R : α → β → Prop} {l : List α} {l' : List β}
    (h : List.Forall₂ R l l') (b : β) (hb : b ∈ l') : ∃ a, a ∈ l ∧ R a b := by
  induction h with
  | nil => cases hb
  | cons hR hF ih =>
    rcases hb with _ | hb'
    · exact ⟨_, List.mem_cons_self _ _, hR⟩
    · obtain ⟨a, ha, hr⟩ := ih (by assumption)
      exact ⟨a, List.mem_cons_of_mem _ ha, hr⟩

/-- C5 (amended).  Whenever `convert` succeeds, the resulting graph
contains no Quant or BipolarQuant nodes, and every MultiThreshold node
it introduced — the node replacing a Quant node of bit-width `b` or a
BipolarQuant node (bit-width 1) — holds exactly `2^bitwidth − 1`
strictly increasing thresholds per channel.  (Scoping to the introduced
nodes is forced: a MultiThreshold node already present in the input
passes through `convert` untouched, thresholds and all.) -/
theorem c5_threshold_invariant (g g' : Graph) (h : convert g = .ok g') :
    NoQuantOps g' ∧ List.Forall₂ ThresholdInvariant g.nodes g'.nodes := by
  obtain ⟨hN, hG⟩ := convert_ok_elim g g' h
  have hF := convertNodes_forall₂ _ _ hN
  constructor
  · intro n' hn'
    obtain ⟨n, -, hr⟩ := forall₂_mem_right hF n' hn'
    exact convertNode_no_quant n n' hr
  · exact List.Forall₂.imp (fun a b hr => convertNode_invariant a b hr) hF

/-- C5, witness: the invariant theorem applied to the BipolarQuant
scenario graph. -/
theorem c5_threshold_invariant_witness :
    NoQuantOps bipolarExConv
      ∧ List.Forall₂ ThresholdInvariant bipolarEx.nodes bipolarExConv.nodes :=
  c5_threshold_invariant bipolarEx bipolarExConv convert_bipolarEx

/-- C5, counterexample to the claim as stated ("for every graph G, every
MultiThreshold node in convert(G) has strictly increasing thresholds"):
a graph already holding a MultiThreshold node with thresholds `[1, 0]`
converts successfully and unchanged, and `[1, 0]` is not strictly
increasing. -/
theorem c5_counterexample :
    convert mtBadEx = .ok mtBadEx
    ∧ mtBadEx.nodes.map Node.op = [.multiThreshold [1, 0] 1 0]
    ∧ ¬ List.Chain' (· < ·) ([1, 0] : List ℚ) := by
  refine ⟨convert_mtBadEx, rfl, ?_⟩
  intro hch
  have := List.chain'_pair.mp hch
  norm_num at this

/-! ## C7: failure leaves the original graph untouched -/

/-- C7.  Whenever `convert` fails, the graph a caller is left with is
the untouched input: the rewrite builds a new graph and commits only on
full success.  In particular a runtime-computed bit-width fails with
`UnsupportedQuantConfigError` naming the offending tensor, even when an
earlier node of the same graph was convertible. -/
theorem c7_transactional :
    (∀ (g : Graph) (e : RewriteError), convert g = .error e → convertCommit g = g)
    ∧ convert dynQuantEx = .error (.unsupportedQuantConfig "global_out") := by
  constructor
  · intro g e h
    unfold convertCommit
    rw [h]
  · exact convert_dynQuantEx

/-- C7, witness: the transactional theorem applied to the
dynamic-bit-width graph. -/
theorem c7_transactional_witness : convertCommit dynQuantEx = dynQuantEx :=
  c7_transactional.1 dynQuantEx (.unsupportedQuantConfig "global_out")
    convert_dynQuantEx

/-! ## C8: the external interface of the graph is preserved -/

/-- C8.  A successful `convert` preserves the graph's interface: the
declared graph inputs (names and sizes) and the graph outputs are those
of the input graph, so any input binding that addresses the original
graph addresses the converted one. -/
theorem c8_interface_preserved (g g' : Graph) (h : convert g = .ok g') :
    g'.inputs = g.inputs ∧ g'.outputs = g.outputs := by
  obtain ⟨-, hG⟩ := convert_ok_elim g g' h
  rw [hG]
  exact ⟨rfl, rfl⟩

/-- C8, witness: interface preservation on the 2-bit Quant scenario
graph. -/
theorem c8_interface_preserved_witness :
    quantEx2bConv.inputs = quantEx2b.inputs
      ∧ quantEx2bConv.outputs = quantEx2b.outputs :=
  c8_interface_preserved quantEx2b quantEx2bConv convert_quantEx2b


/-! ## C1: round-trip numeric equivalence away from threshold ties -/

/-- `e` is extended by `f`: every binding of `e` is a binding of `f`. -/
def envLe (e f : Env) : Prop := ∀ k v, lk k e = some v → lk k f = some v

theorem lk_append_left {α : Type} (k : String) (e e' : List (String × α)) (v : α)
    (h : lk k e = some v) : lk k (e ++ e') = some v := by
  induction e with
  | nil => cases h
  | cons p ps ih =>
    rw [List.cons_append]
    unfold lk at h ⊢
    split_ifs at h ⊢ with hp
    · exact h
    · exact ih h

theorem envLe_refl (e : Env) : envLe e e := fun _ _ h => h

theorem envLe_trans {a b c : Env} (h1 : envLe a b) (h2 : envLe b c) : envLe a c :=
  fun k v h => h2 k v (h1 k v h)

theorem stepNode_extends (env : Env) (n : Node) : envLe env (stepNode env n) := by
  intro k v h
  unfold stepNode
  split
  · exact h
  · split
    · exact h
    · split
      · exact h
      · exact lk_append_left k env _ v h

theorem sweepE_extends (l : List Node) (env : Env) : envLe env (sweepE l env) := by
  induction l generalizing env with
  | nil => exact envLe_refl env
  | cons n ns ih =>
    exact envLe_trans (stepNode_extends env n) (ih (stepNode env n))

theorem iterE_mono (l : List Node) (env : Env) {f f' : ℕ} (h : f ≤ f') :
    envLe (iterE f l env) (iterE f' l env) := by
  induction h with
  | refl => exact envLe_refl _
  | step h ih => exact envLe_trans ih (sweepE_extends l _)

/-- The converted node has the same wiring as the original. -/
theorem convertNode_io (n n' : Node) (h : convertNode n = .ok n') :
    n'.inputs = n.inputs ∧ n'.output = n.output := by
  unfold convertNode at h
  cases hop : n.op <;> simp only [hop] at h
  case identityOp => cases h; exact ⟨rfl, rfl⟩
  case addOp => cases h; exact ⟨rfl, rfl⟩
  case quant p =>
    cases hbw : p.bw <;> simp only [hbw] at h
    case static b =>
      split at h
      · cases h; exact ⟨rfl, rfl⟩
      · cases h
    case dynamic t => cases h
  case bipolarQuant s => cases h; exact ⟨rfl, rfl⟩
  case multiThreshold thr os ob => cases h; exact ⟨rfl, rfl⟩
  case trunc a c => cases h

/-- The bipolar tie-break is exact everywhere: the single-threshold
MultiThreshold node with `out_scale = 2s`, `out_bias = −s` computes
`s · sign(x)` with `sign(0) = +1`, including at `x = 0`. -/
theorem mt_eq_bipolar_scalar (s x : ℚ) :
    mtScalar [0] (2 * s) (-s) x = bipolarScalar s x := by
  unfold mtScalar bipolarScalar
  by_cases h : (0 : ℚ) ≤ x
  · simp only [List.countP_cons, List.countP_nil, h, decide_eq_true_eq, if_true,
      decide_eq_true (h)]
    push_cast
    ring
  · simp only [List.countP_cons, List.countP_nil]
    rw [if_neg (by simpa using h), if_neg h]
    push_cast
    ring

/-- Tie-freedom of one node against a reference environment: if the node
is a convertible Quant node whose data input is bound, no element of the
bound value lies exactly on a synthesized threshold. -/
def nodeTieFreeB (fenv : Env) (n : Node) : Bool :=
  match n.op, n.inputs with
  | .quant p, [d] =>
    match lk d fenv, p.bw with
    | some v, .static b =>
      v.all (fun x =>
        (quantThresholds p.scale p.zeroPoint b p.signed p.rm).all
          (fun t => decide (x ≠ t)))
    | _, _ => true
  | _, _ => true

/-- No Quant node of the graph receives, during execution on the given
binding, a value with an element exactly on one of its synthesized
thresholds (the inputs where round-to-nearest-even and a
meets-or-exceeds threshold count may disagree). -/
def noTies (g : Graph) (x : Env) : Bool :=
  g.nodes.all (nodeTieFreeB (finalEnv g x))

theorem lkAll_length (env : Env) (l : List String) (vs : List Value)
    (h : lkAll env l = some vs) : vs.length = l.length := by
  induction l generalizing vs with
  | nil => unfold lkAll at h; cases h; rfl
  | cons i is ih =>
    unfold lkAll at h
    cases hd : lk i env <;> rw [hd] at h
    · cases h
    · cases hrest : lkAll env is <;> rw [hrest] at h
      · cases h
      · cases h
        simp [ih _ hrest]

theorem lkAll_singleton (env : Env) (l : List String) (v : Value)
    (h : lkAll env l = some [v]) : ∃ d, l = [d] ∧ lk d env = some v := by
  have hlen := lkAll_length env l [v] h
  cases l with
  | nil => cases hlen
  | cons d l' =>
    cases l' with
    | nil =>
      refine ⟨d, rfl, ?_⟩
      unfold lkAll at h
      cases hd : lk d env <;> rw [hd] at h
      · cases h
      · cases hrest : lkAll env [] <;> rw [hrest] at h
        · cases h
        · unfold lkAll at hrest
          cases hrest
          cases h
          rfl
    | cons d' l'' => simp at hlen

/-- Pointwise agreement of the evaluation functions of a node and its
converted form, at tie-free inputs. -/
theorem evalOp_convert (F env : Env) (n n' : Node) (h : convertNode n = .ok n')
    (hext : envLe env F) (htie : nodeTieFreeB F n = true)
    (vals : List Value) (hm : lkAll env n.inputs = some vals) :
    evalOp n'.op vals = evalOp n.op vals := by
  cases hop : n.op
  case identityOp =>
    unfold convertNode at h; simp only [hop] at h; cases h; rw [hop]
  case addOp =>
    unfold convertNode at h; simp only [hop] at h; cases h; rw [hop]
  case multiThreshold thr os ob =>
    unfold convertNode at h; simp only [hop] at h; cases h; rw [hop]
  case trunc a c =>
    unfold convertNode at h; simp only [hop] at h; cases h
  case bipolarQuant s =>
    unfold convertNode at h; simp only [hop] at h; cases h
    cases vals with
    | nil => rfl
    | cons v vs =>
      cases vs with
      | cons w ws => rfl
      | nil =>
        simp only [evalOp]
        congr 1
        exact List.map_congr_left (fun x _ => mt_eq_bipolar_scalar s x)
  case quant p =>
    unfold convertNode at h; simp only [hop] at h
    cases hbw : p.bw <;> simp only [hbw] at h
    case dynamic t => cases h
    case static b =>
      split at h
      case isFalse => cases h
      case isTrue hcond =>
        cases h
        cases vals with
        | nil => rfl
        | cons v vs =>
          cases vs with
          | cons w ws => rfl
          | nil =>
            simp only [evalOp, hbw]
            obtain ⟨d, hl, hlk⟩ := lkAll_singleton env n.inputs v hm
            have hlkF : lk d F = some v := hext d v hlk
            unfold nodeTieFreeB at htie
            rw [hop, hl] at htie
            simp only [hlkF, hbw, List.all_eq_true, decide_eq_true_eq] at htie
            congr 1
            refine List.map_congr_left (fun x hx => ?_)
            exact mt_eq_quant_scalar p.scale p.zeroPoint b p.signed p.rm
              hcond.1 hcond.2 x (htie x hx)

/-- One interpreter step on the converted node equals the step on the
original node, below a tie-free reference environment. -/
theorem stepNode_convert (F : Env) (n n' : Node) (h : convertNode n = .ok n')
    (env : Env) (hext : envLe env F) (htie : nodeTieFreeB F n = true) :
    stepNode env n' = stepNode env n := by
  obtain ⟨hin, hout⟩ := convertNode_io n n' h
  unfold stepNode
  rw [hin, hout]
  split
  · rfl
  · cases hm : lkAll env n.inputs with
    | none => rfl
    | some vals =>
      simp only [hm]
      rw [evalOp_convert F env n n' h hext htie vals hm]

/-- One sweep over the converted node list equals the sweep over the
original list, provided the sweep's result is below the tie-free
reference environment. -/
theorem sweepE_convert (F : Env) (l l' : List Node)
    (hF2 : List.Forall₂ (fun n n' => convertNode n = .ok n') l l')
    (htie : ∀ n ∈ l, nodeTieFreeB F n = true) :
    ∀ env, envLe (sweepE l env) F → sweepE l' env = sweepE l env := by
  induction hF2 with
  | nil => intro env _; rfl
  | @cons n n' ns ns' hc hF ih =>
    intro env hle
    have hle' : envLe (sweepE ns (stepNode env n)) F := hle
    have hext : envLe env F :=
      envLe_trans (stepNode_extends env n)
        (envLe_trans (sweepE_extends ns (stepNode env n)) hle')
    have hstep : stepNode env n' = stepNode env n :=
      stepNode_convert F n n' hc env hext (htie n (List.mem_cons_self n ns))
    show sweepE ns' (stepNode env n') = sweepE ns (stepNode env n)
    rw [hstep]
    exact ih (fun m hm => htie m (List.mem_cons_of_mem n hm)) (stepNode env n) hle'

/-- C1 (amended).  For every graph whose nodes all convert (only
Quant/BipolarQuant nodes with static bit-width and positive scale, plus
pass-through operators) and every input binding under which no Quant
node receives a value lying exactly on one of its synthesized
thresholds, executing the converted graph gives exactly the same result
as executing the original — in particular well within any floating-point
rounding tolerance.  (At an exact tie the two sides genuinely differ by
a full quantization step: see the counterexample.) -/
theorem c1_roundtrip (g g' : Graph) (x : Env)
    (hc : convert g = .ok g') (htie : noTies g x = true) :
    execute g' x = execute g x := by
  obtain ⟨hN, hG⟩ := convert_ok_elim g g' hc
  have hF2 := convertNodes_forall₂ _ _ hN
  have hlen : g.nodes.length = g'.nodes.length := hF2.length_eq
  have htie' : ∀ n ∈ g.nodes, nodeTieFreeB (finalEnv g x) n = true := by
    unfold noTies at htie
    exact fun n hn => List.all_eq_true.mp htie n hn
  have hiter : ∀ f, f ≤ g.nodes.length →
      iterE f g'.nodes (x ++ g.inits) = iterE f g.nodes (x ++ g.inits) := by
    intro f hf
    induction f with
    | zero => rfl
    | succ f ih =>
      show sweepE g'.nodes (iterE f g'.nodes (x ++ g.inits)) = _
      rw [ih (Nat.le_of_succ_le hf)]
      exact sweepE_convert (finalEnv g x) g.nodes g'.nodes hF2 htie'
        (iterE f g.nodes (x ++ g.inits))
        (iterE_mono g.nodes (x ++ g.inits) hf)
  have hini : g'.inits = g.inits := by rw [hG]
  have hinp : g'.inputs = g.inputs := by rw [hG]
  have houts : g'.outputs = g.outputs := by rw [hG]
  have henv : finalEnv g' x = finalEnv g x := by
    unfold finalEnv
    rw [hini, show g'.nodes.length = g.nodes.length from hlen.symm]
    exact hiter g.nodes.length (Nat.le_refl _)
  unfold execute
  rw [hinp, houts, henv]

set_option maxRecDepth 8000 in
theorem noTies_quantEx2b :
    noTies quantEx2b [("global_in", [2/5, 8/5, 29/10, 31/10])] = true := by
  norm_num [noTies, nodeTieFreeB, quantEx2b, single, finalEnv, iterE, sweepE, stepNode,
    lk, lkAll, evalOp, quantScalar, clipZ, qminZ, qmaxZ, roundM, rne, quantThresholds,
    modeOffset, List.range, List.range.loop, List.mapM, List.mapM.loop]
  try simp

/-- C1, witness: round-trip equality on the 2-bit Quant scenario, whose
inputs `[0.4, 1.6, 2.9, 3.1]` avoid the thresholds `[0.5, 1.5, 2.5]`. -/
theorem c1_roundtrip_witness :
    execute quantEx2bConv [("global_in", [2/5, 8/5, 29/10, 31/10])]
      = execute quantEx2b [("global_in", [2/5, 8/5, 29/10, 31/10])] :=
  c1_roundtrip quantEx2b quantEx2bConv [("global_in", [2/5, 8/5, 29/10, 31/10])]
    convert_quantEx2b noTies_quantEx2b

/-- C1, counterexample to the claim as stated: on the 2-bit unsigned
Quant graph, the input vector `[0.5, 0.5, 0.5, 0.5]` — every element an
exact rounding tie — executes to `0` before conversion (round half to
even) but to `1` after (the threshold `0.5` is met), and `0` and `1`
are not within the `1e-5`-relative tolerance. -/
theorem c1_counterexample :
    convert quantEx2b = .ok quantEx2bConv
    ∧ execute quantEx2b [("global_in", [1/2, 1/2, 1/2, 1/2])]
        = some [[0, 0, 0, 0]]
    ∧ execute quantEx2bConv [("global_in", [1/2, 1/2, 1/2, 1/2])]
        = some [[1, 1, 1, 1]]
    ∧ ¬ ratClose 0 1 := by
  refine ⟨convert_quantEx2b, ?_, ?_, ?_⟩
  · norm_num [execute, quantEx2b, single, finalEnv, iterE, sweepE, stepNode, lk, lkAll, evalOp,
      quantScalar, clipZ, qminZ, qmaxZ, roundM, rne, List.mapM, List.mapM.loop]
    simp
  · norm_num [execute, quantEx2bConv, single, finalEnv, iterE, sweepE, stepNode, lk,
      evalOp, mtScalar, List.countP_cons, List.countP_nil, List.mapM, List.mapM.loop]
    simp
  · unfold ratClose
    rw [show (0:ℚ) - 1 = -1 by norm_num, abs_neg,
      abs_of_nonneg (by norm_num : (0:ℚ) ≤ 1)]
    norm_num


/-! ## C9: model emission / ingestion round-trip -/

/-- Modelled from the spec: §6 model emission/ingestion — the emitted
artifact is opaque to the core ("opaque bytes"), produced and consumed
by an external serializer pair.  The artifact is modelled as a
symbolic-expression tree; `encGraph` is the emitter and `decGraph` the
ingester. -/
inductive SExp where
  | str (s : String)
  | num (q : ℚ)
  | int (i : ℤ)
  | nat (n : Nat)
  | list (xs : List SExp)

def encBool (b : Bool) : SExp := if b then .nat 1 else .nat 0

def decBool : SExp → Option Bool
  | .nat 1 => some true
  | .nat 0 => some false
  | _ => none

def encRM : RoundMode → SExp
  | .roundNearestEven => .nat 0
  | .floorMode => .nat 1
  | .ceilMode => .nat 2

def decRM : SExp → Option RoundMode
  | .nat 0 => some .roundNearestEven
  | .nat 1 => some .floorMode
  | .nat 2 => some .ceilMode
  | _ => none

def encBW : BitWidth → SExp
  | .static b => .list [.nat b]
  | .dynamic t => .list [.str t]

def decBW : SExp → Option BitWidth
  | .list [.nat b] => some (.static b)
  | .list [.str t] => some (.dynamic t)
  | _ => none

def decNum : SExp → Option ℚ
  | .num q => some q
  | _ => none

def decStr : SExp → Option String
  | .str s => some s
  | _ => none

/-- Decode a list elementwise; `none` as soon as one element fails. -/
def decListWith (f : SExp → Option α) : List SExp → Option (List α)
  | [] => some []
  | x :: xs =>
    match f x, decListWith f xs with
    | some a, some as => some (a :: as)
    | _, _ => none

theorem decListWith_map (f : SExp → Option α) (enc : α → SExp) (l : List α)
    (h : ∀ a ∈ l, f (enc a) = some a) :
    decListWith f (l.map enc) = some l := by
  induction l with
  | nil => rfl
  | cons a as ih =>
    rw [List.map_cons]
    unfold decListWith
    rw [h a (List.mem_cons_self a as), ih (fun b hb => h b (List.mem_cons_of_mem a hb))]

def encOp : Op → SExp
  | .identityOp => .str "Identity"
  | .addOp => .str "Add"
  | .quant p => .list [.str "Quant", .num p.scale, .int p.zeroPoint, encBW p.bw,
      encBool p.signed, encRM p.rm]
  | .bipolarQuant s => .list [.str "BipolarQuant", .num s]
  | .multiThreshold thr os ob =>
    .list [.str "MultiThreshold", .list (thr.map SExp.num), .num os, .num ob]
  | .trunc a c => .list [.str "Trunc", .nat a, .nat c]

def decOp : SExp → Option Op
  | .str "Identity" => some .identityOp
  | .str "Add" => some .addOp
  | .list [.str "Quant", .num s, .int z, bw, sg, rm] =>
    match decBW bw, decBool sg, decRM rm with
    | some bw', some sg', some rm' => some (.quant ⟨s, z, bw', sg', rm'⟩)
    | _, _, _ => none
  | .list [.str "BipolarQuant", .num s] => some (.bipolarQuant s)
  | .list [.str "MultiThreshold", .list thr, .num os, .num ob] =>
    match decListWith decNum thr with
    | some thr' => some (.multiThreshold thr' os ob)
    | none => none
  | .list [.str "Trunc", .nat a, .nat c] => some (.trunc a c)
  | _ => none

theorem decBW_encBW (bw : BitWidth) : decBW (encBW bw) = some bw := by
  cases bw <;> rfl

theorem decBool_encBool (b : Bool) : decBool (encBool b) = some b := by
  cases b <;> rfl

theorem decRM_encRM (rm : RoundMode) : decRM (encRM rm) = some rm := by
  cases rm <;> rfl

theorem decOp_encOp (op : Op) : decOp (encOp op) = some op := by
  cases op with
  | identityOp => rfl
  | addOp => rfl
  | quant p =>
    obtain ⟨s, z, bw, sg, rm⟩ := p
    simp only [encOp, decOp, decBW_encBW, decBool_encBool, decRM_encRM]
  | bipolarQuant s => rfl
  | multiThreshold thr os ob =>
    simp only [encOp, decOp, decListWith_map decNum SExp.num thr (fun a _ => rfl)]
  | trunc a c => rfl

def encNode (n : Node) : SExp :=
  .list [encOp n.op, .list (n.inputs.map SExp.str), .str n.output]

def decNode : SExp → Option Node
  | .list [op, .list ins, .str out] =>
    match decOp op, decListWith decStr ins with
    | some op', some ins' => some ⟨op', ins', out⟩
    | _, _ => none
  | _ => none

theorem decNode_encNode (n : Node) : decNode (encNode n) = some n := by
  obtain ⟨op, ins, out⟩ := n
  simp only [encNode, decNode, decOp_encOp,
    decListWith_map decStr SExp.str ins (fun a _ => rfl)]

def encInit (p : String × Value) : SExp := .list [.str p.1, .list (p.2.map SExp.num)]

def decInit : SExp → Option (String × Value)
  | .list [.str k, .list vs] =>
    match decListWith decNum vs with
    | some v => some (k, v)
    | none => none
  | _ => none

theorem decInit_encInit (p : String × Value) : decInit (encInit p) = some p := by
  obtain ⟨k, v⟩ := p
  simp only [encInit, decInit, decListWith_map decNum SExp.num v (fun a _ => rfl)]

def encSized (p : String × Nat) : SExp := .list [.str p.1, .nat p.2]

def decSized : SExp → Option (String × Nat)
  | .list [.str k, .nat m] => some (k, m)
  | _ => none

/-- Model emission (§6): serialize a finalized graph to the artifact. -/
def encGraph (g : Graph) : SExp :=
  .list [.list (g.nodes.map encNode), .list (g.inits.map encInit),
    .list (g.inputs.map encSized), .list (g.outputs.map SExp.str),
    .list (g.shapes.map encSized)]

/-- Model ingestion (§6): deserialize the artifact back into a graph. -/
def decGraph : SExp → Option Graph
  | .list [.list ns, .list is, .list ips, .list os, .list shs] =>
    match decListWith decNode ns, decListWith decInit is, decListWith decSized ips,
        decListWith decStr os, decListWith decSized shs with
    | some a, some b, some c, some d, some e => some ⟨a, b, c, d, e⟩
    | _, _, _, _, _ => none
  | _ => none

/-- C9.  Emitting a graph and re-ingesting it restores the graph
exactly, so executing the reloaded graph on any input binding gives
exactly the outputs of the graph before the save/load round-trip —
in particular elementwise within any floating-point tolerance. -/
theorem c9_save_load_roundtrip (g : Graph) (x : Env) :
    decGraph (encGraph g) = some g
    ∧ (decGraph (encGraph g)).map (fun g' => execute g' x) = some (execute g x) := by
  have h : decGraph (encGraph g) = some g := by
    obtain ⟨ns, is, ips, os, shs⟩ := g
    simp only [encGraph, decGraph,
      decListWith_map decNode encNode ns (fun a _ => decNode_encNode a),
      decListWith_map decInit encInit is (fun a _ => decInit_encInit a),
      decListWith_map decSized encSized ips (fun a _ => rfl),
      decListWith_map decStr SExp.str os (fun a _ => rfl),
      decListWith_map decSized encSized shs (fun a _ => rfl)]
  exact ⟨h, by rw [h]; rfl⟩


/-! ## C6: the cleanup pass pipeline and its idempotence -/

/-- Run a pass repeatedly until it makes no change, with explicit fuel. -/
def iterFix [DecidableEq α] (f : α → α) : Nat → α → α
  | 0, a => a
  | fuel + 1, a => if f a = a then a else iterFix f fuel (f a)

theorem iterFix_of_fixed [DecidableEq α] (f : α → α) (fuel : Nat) (a : α)
    (h : f a = a) : iterFix f fuel a = a := by
  cases fuel with
  | zero => rfl
  | succ n => unfold iterFix; rw [if_pos h]

theorem iterFix_fixed [DecidableEq α] (f : α → α) (m : α → Nat)
    (hm : ∀ a, f a ≠ a → m (f a) < m a) :
    ∀ (fuel : Nat) (a : α), m a ≤ fuel → f (iterFix f fuel a) = iterFix f fuel a := by
  intro fuel
  induction fuel with
  | zero =>
    intro a ha
    by_cases h : f a = a
    · simpa [iterFix] using h
    · have := hm a h
      omega
  | succ n ih =>
    intro a ha
    unfold iterFix
    by_cases h : f a = a
    · rw [if_pos h]
      exact h
    · rw [if_neg h]
      exact ih (f a) (by have := hm a h; omega)

/-- The value a node folds to, when every input is already constant. -/
def foldRes (en : List (String × Value)) (n : Node) : Option Value :=
  match lkAll en n.inputs with
  | none => none
  | some vals => evalOp n.op vals

/-- Whether constant folding applies to a node: its output is not yet an
initializer and its evaluation from the initializers succeeds. -/
def foldGuard (en : List (String × Value)) (n : Node) : Bool :=
  !(lk n.output en).isSome && (foldRes en n).isSome

/-- One constant-folding sweep over the node list, carrying the growing
initializer map; returns the surviving nodes and the new initializers. -/
def faux : List Node → List (String × Value) → List Node × List (String × Value)
  | [], en => ([], en)
  | n :: ns, en =>
    if foldGuard en n then faux ns (en ++ [(n.output, (foldRes en n).getD [])])
    else
      ((faux ns en).1.cons n, (faux ns en).2)

/-- One constant-folding pass over the graph. -/
def sweepF (g : Graph) : Graph :=
  { g with nodes := (faux g.nodes g.inits).1, inits := (faux g.nodes g.inits).2 }

/-- Modelled from the spec: §4.5 constant folding — evaluates nodes
whose every input is an initializer, replacing them with a new
initializer, iterated to a fixed point (each of the §4.5 passes is
required to be idempotent). -/
def constFold (g : Graph) : Graph := iterFix sweepF g.nodes.length g

theorem faux_len (l : List Node) (en : List (String × Value)) :
    (faux l en).1.length ≤ l.length := by
  induction l generalizing en with
  | nil => exact Nat.le_refl 0
  | cons n ns ih =>
    unfold faux
    split
    · exact Nat.le_succ_of_le (ih _)
    · simpa using Nat.succ_le_succ (ih en)

theorem faux_id_iff (l : List Node) (en : List (String × Value)) :
    faux l en = (l, en) ↔ ∀ n ∈ l, foldGuard en n = false := by
  induction l generalizing en with
  | nil => simp [faux]
  | cons n ns ih =>
    constructor
    · intro h m hm
      unfold faux at h
      split at h
      · rename_i hg
        have hlen : (faux ns (en ++ [(n.output, (foldRes en n).getD [])])).1.length
            ≤ ns.length := faux_len _ _
        have : (faux ns (en ++ [(n.output, (foldRes en n).getD [])])).1 = n :: ns := by
          rw [h]
        rw [this] at hlen
        simp at hlen
      · rename_i hg
        have h1 : (faux ns en).1 = ns ∧ (faux ns en).2 = en := by
          have := congrArg Prod.fst h
          have h2 := congrArg Prod.snd h
          simp at this h2
          exact ⟨this, h2⟩
        have htail := (ih en).mp (Prod.ext h1.1 h1.2)
        rcases List.mem_cons.mp hm with hEq | hmem
        · rw [hEq]
          exact Bool.not_eq_true _ ▸ (by simpa using hg)
        · exact htail m hmem
    · intro h
      unfold faux
      rw [if_neg (by simp [h n (List.mem_cons_self n ns)])]
      have htail := (ih en).mpr (fun m hm => h m (List.mem_cons_of_mem n hm))
      rw [htail]

theorem sweepF_eq_iff (g : Graph) :
    sweepF g = g ↔ ∀ n ∈ g.nodes, foldGuard g.inits n = false := by
  constructor
  · intro h
    have h1 : (faux g.nodes g.inits).1 = g.nodes := congrArg Graph.nodes h
    have h2 : (faux g.nodes g.inits).2 = g.inits := congrArg Graph.inits h
    exact (faux_id_iff g.nodes g.inits).mp (Prod.ext h1 h2)
  · intro h
    have := (faux_id_iff g.nodes g.inits).mpr h
    unfold sweepF
    rw [this]

theorem sweepF_measure (g : Graph) (h : sweepF g ≠ g) :
    (sweepF g).nodes.length < g.nodes.length := by
  by_contra hlen
  apply h
  have hle : (faux g.nodes g.inits).1.length ≤ g.nodes.length := faux_len _ _
  have heq : (faux g.nodes g.inits).1.length = g.nodes.length := by
    have : (sweepF g).nodes.length = (faux g.nodes g.inits).1.length := rfl
    omega
  -- a sweep that keeps the node count folded nothing
  have hall : ∀ n ∈ g.nodes, foldGuard g.inits n = false := by
    have : ∀ (l : List Node) (en : List (String × Value)),
        (faux l en).1.length = l.length → ∀ n ∈ l, foldGuard en n = false := by
      intro l
      induction l with
      | nil => intro en _ n hn; cases hn
      | cons n ns ih =>
        intro en hlen' m hm
        unfold faux at hlen'
        split at hlen'
        · rename_i hg
          have := faux_len ns (en ++ [(n.output, (foldRes en n).getD [])])
          simp at hlen'
          omega
        · rename_i hg
          simp at hlen'
          rcases List.mem_cons.mp hm with hEq | hmem
          · rw [hEq]; simpa using hg
          · exact ih en hlen' m hmem
    exact this g.nodes g.inits heq
  exact (sweepF_eq_iff g).mpr hall

theorem sweepF_constFold (g : Graph) : sweepF (constFold g) = constFold g := by
  have := iterFix_fixed sweepF (fun x => x.nodes.length)
    (fun a ha => sweepF_measure a ha) g.nodes.length g (Nat.le_refl _)
  exact this

theorem constFold_of_fixed (g : Graph) (h : sweepF g = g) : constFold g = g :=
  iterFix_of_fixed sweepF g.nodes.length g h


/-- All tensor names consumed by some node of the list. -/
def unionInputs (ns : List Node) : Finset String :=
  ns.foldr (fun n acc => acc ∪ n.inputs.toFinset) ∅

theorem mem_unionInputs (ns : List Node) (x : String) :
    x ∈ unionInputs ns ↔ ∃ n ∈ ns, x ∈ n.inputs := by
  induction ns with
  | nil => simp [unionInputs]
  | cons n ns ih =>
    show x ∈ unionInputs ns ∪ n.inputs.toFinset ↔ _
    simp only [Finset.mem_union, List.mem_toFinset, ih]
    constructor
    · rintro (⟨m, hm, hx⟩ | hx)
      · exact ⟨m, List.mem_cons_of_mem n hm, hx⟩
      · exact ⟨n, List.mem_cons_self n ns, hx⟩
    · rintro ⟨m, hm, hx⟩
      rcases List.mem_cons.mp hm with hEq | hm'
      · exact Or.inr (hEq ▸ hx)
      · exact Or.inl ⟨m, hm', hx⟩

/-- One liveness-propagation step: add the inputs of every node whose
output is already live. -/
def liveStep (ns : List Node) (s : Finset String) : Finset String :=
  ns.foldr (fun n acc => if n.output ∈ s then acc ∪ n.inputs.toFinset else acc) s

theorem mem_liveStep (ns : List Node) (s : Finset String) (x : String) :
    x ∈ liveStep ns s ↔ x ∈ s ∨ ∃ n ∈ ns, n.output ∈ s ∧ x ∈ n.inputs := by
  induction ns with
  | nil => simp [liveStep]
  | cons n ns ih =>
    show x ∈ (if n.output ∈ s then liveStep ns s ∪ n.inputs.toFinset
      else liveStep ns s) ↔ _
    by_cases h : n.output ∈ s
    · rw [if_pos h]
      simp only [Finset.mem_union, List.mem_toFinset, ih]
      constructor
      · rintro ((hx | ⟨m, hm, hmo, hx⟩) | hx)
        · exact Or.inl hx
        · exact Or.inr ⟨m, List.mem_cons_of_mem n hm, hmo, hx⟩
        · exact Or.inr ⟨n, List.mem_cons_self n ns, h, hx⟩
      · rintro (hx | ⟨m, hm, hmo, hx⟩)
        · exact Or.inl (Or.inl hx)
        · rcases List.mem_cons.mp hm with hEq | hm'
          · exact Or.inr (hEq ▸ hx)
          · exact Or.inl (Or.inr ⟨m, hm', hmo, hx⟩)
    · rw [if_neg h]
      rw [ih]
      constructor
      · rintro (hx | ⟨m, hm, hmo, hx⟩)
        · exact Or.inl hx
        · exact Or.inr ⟨m, List.mem_cons_of_mem n hm, hmo, hx⟩
      · rintro (hx | ⟨m, hm, hmo, hx⟩)
        · exact Or.inl hx
        · rcases List.mem_cons.mp hm with hEq | hm'
          · exact absurd (hEq ▸ hmo) h
          · exact Or.inr ⟨m, hm', hmo, hx⟩

theorem subset_liveStep (ns : List Node) (s : Finset String) : s ⊆ liveStep ns s :=
  fun x hx => (mem_liveStep ns s x).mpr (Or.inl hx)

theorem liveStep_mono (ns : List Node) {s t : Finset String} (h : s ⊆ t) :
    liveStep ns s ⊆ liveStep ns t := by
  intro x hx
  rcases (mem_liveStep ns s x).mp hx with hx | ⟨m, hm, hmo, hxi⟩
  · exact (mem_liveStep ns t x).mpr (Or.inl (h hx))
  · exact (mem_liveStep ns t x).mpr (Or.inr ⟨m, hm, h hmo, hxi⟩)

theorem liveStep_subset_union (ns : List Node) (s : Finset String) :
    liveStep ns s ⊆ s ∪ unionInputs ns := by
  intro x hx
  rcases (mem_liveStep ns s x).mp hx with hx | ⟨m, hm, _, hxi⟩
  · exact Finset.mem_union_left _ hx
  · exact Finset.mem_union_right _ ((mem_unionInputs ns x).mpr ⟨m, hm, hxi⟩)

theorem liveStep_sublist (ns' ns : List Node) (hsub : ∀ n ∈ ns', n ∈ ns)
    (s : Finset String) : liveStep ns' s ⊆ liveStep ns s := by
  intro x hx
  rcases (mem_liveStep ns' s x).mp hx with hx | ⟨m, hm, hmo, hxi⟩
  · exact (mem_liveStep ns s x).mpr (Or.inl hx)
  · exact (mem_liveStep ns s x).mpr (Or.inr ⟨m, hsub m hm, hmo, hxi⟩)

theorem liveStep_measure (ns : List Node) (s : Finset String)
    (h : liveStep ns s ≠ s) :
    ((unionInputs ns \ liveStep ns s).card) < (unionInputs ns \ s).card := by
  have hsub : s ⊆ liveStep ns s := subset_liveStep ns s
  have hss : s ⊂ liveStep ns s := (Finset.ssubset_iff_of_subset hsub).mpr (by
    by_contra hno
    push_neg at hno
    exact h (Finset.Subset.antisymm (fun x hx => by
      by_contra hxs
      exact hxs (hno x hx)) hsub))
  obtain ⟨x, hxl, hxs⟩ := Finset.exists_of_ssubset hss
  have hxU : x ∈ unionInputs ns := by
    rcases Finset.mem_union.mp (liveStep_subset_union ns s hxl) with hx | hx
    · exact absurd hx hxs
    · exact hx
  apply Finset.card_lt_card
  rw [Finset.ssubset_iff_of_subset (Finset.sdiff_subset_sdiff (Finset.Subset.refl _) hsub)]
  exact ⟨x, Finset.mem_sdiff.mpr ⟨hxU, hxs⟩, fun hc => (Finset.mem_sdiff.mp hc).2 hxl⟩

/-- The live tensor names of a graph: the backward closure of the graph
outputs under "a node's inputs are live when its output is". -/
def liveSet (ns : List Node) (os : List String) : Finset String :=
  iterFix (liveStep ns) (unionInputs ns).card os.toFinset

theorem liveStep_liveSet (ns : List Node) (os : List String) :
    liveStep ns (liveSet ns os) = liveSet ns os :=
  iterFix_fixed (liveStep ns) (fun s => (unionInputs ns \ s).card)
    (fun s hs => liveStep_measure ns s hs) (unionInputs ns).card os.toFinset
    (Finset.card_le_card (Finset.sdiff_subset))

theorem subset_iterFix (f : Finset String → Finset String)
    (hext : ∀ s, s ⊆ f s) :
    ∀ (fuel : Nat) (a : Finset String), a ⊆ iterFix f fuel a := by
  intro fuel
  induction fuel with
  | zero => intro a; exact Finset.Subset.refl a
  | succ n ih =>
    intro a
    unfold iterFix
    split
    · exact Finset.Subset.refl a
    · exact Finset.Subset.trans (hext a) (ih (f a))

theorem iterFix_subset_closed (f : Finset String → Finset String)
    (hmono : ∀ s t, s ⊆ t → f s ⊆ f t) (T : Finset String) (hT : f T ⊆ T) :
    ∀ (fuel : Nat) (a : Finset String), a ⊆ T → iterFix f fuel a ⊆ T := by
  intro fuel
  induction fuel with
  | zero => intro a ha; exact ha
  | succ n ih =>
    intro a ha
    unfold iterFix
    split
    · exact ha
    · exact ih (f a) (Finset.Subset.trans (hmono a T ha) hT)

theorem subset_liveSet (ns : List Node) (os : List String) :
    os.toFinset ⊆ liveSet ns os :=
  subset_iterFix (liveStep ns) (subset_liveStep ns) (unionInputs ns).card os.toFinset

/-- Modelled from the spec: §4.5 dead-node elimination — removes nodes
with no path to a graph output (computed as a liveness closure, the
fixed point of the §4.5 iteration). -/
def dce (g : Graph) : Graph :=
  { g with nodes := g.nodes.filter (fun n => decide (n.output ∈ liveSet g.nodes g.outputs)) }

/-- Removing the dead nodes does not change the live set. -/
theorem liveSet_dce (ns : List Node) (os : List String) :
    liveSet (ns.filter (fun n => decide (n.output ∈ liveSet ns os))) os
      = liveSet ns os := by
  set L := liveSet ns os with hL
  set kept := ns.filter (fun n => decide (n.output ∈ L)) with hkept
  have hsub : ∀ n ∈ kept, n ∈ ns := fun n hn => (List.mem_filter.mp hn).1
  have hi : liveSet kept os ⊆ L := by
    apply iterFix_subset_closed (liveStep kept)
      (fun s t hst => liveStep_mono kept hst) L
    · calc liveStep kept L ⊆ liveStep ns L := liveStep_sublist kept ns hsub L
        _ = L := liveStep_liveSet ns os
    · exact subset_liveSet ns os
  have hii : L ⊆ liveSet kept os := by
    apply iterFix_subset_closed (liveStep ns)
      (fun s t hst => liveStep_mono ns hst) (liveSet kept os)
    · intro x hx
      rcases (mem_liveStep ns (liveSet kept os) x).mp hx with hx | ⟨m, hm, hmo, hxi⟩
      · exact hx
      · have hmL : m.output ∈ L := hi hmo
        have hmkept : m ∈ kept := List.mem_filter.mpr ⟨hm, by simpa using hmL⟩
        rw [← liveStep_liveSet kept os]
        exact (mem_liveStep kept (liveSet kept os) x).mpr
          (Or.inr ⟨m, hmkept, hmo, hxi⟩)
    · exact subset_liveSet kept os
  exact Finset.Subset.antisymm hi hii

/-- Dead-node elimination is idempotent. -/
theorem dce_dce (g : Graph) : dce (dce g) = dce g := by
  show ({ g with nodes := _ } : Graph) = { g with nodes := _ }
  have hA := liveSet_dce g.nodes g.outputs
  simp only [dce, hA]
  rw [List.filter_eq_self.mpr (fun a ha => (List.mem_filter.mp ha).2)]

/-- Dead-node elimination preserves constant-fold fixedness. -/
theorem sweepF_dce (x : Graph) (h : sweepF x = x) : sweepF (dce x) = dce x := by
  rw [sweepF_eq_iff] at h ⊢
  intro n hn
  exact h n (List.mem_filter.mp hn).1


/-- The `i`-th canonical tensor name: `"t"`, `"tt"`, `"ttt"`, … -/
def tname (i : Nat) : String := String.mk (List.replicate (i + 1) 't')

theorem tname_inj {i j : Nat} (h : tname i = tname j) : i = j := by
  have hd := congrArg String.data h
  simp only [tname] at hd
  have hl := congrArg List.length hd
  simp at hl
  omega

/-- The names of the declared graph inputs. -/
def inputNames (g : Graph) : List String := g.inputs.map Prod.fst

/-- The intermediate tensors subject to canonical renaming: node outputs
that are neither graph outputs nor graph inputs. -/
def enumNames (g : Graph) : List String :=
  (g.nodes.map (fun n => n.output)).filter
    (fun o => decide (o ∉ g.outputs) && decide (o ∉ inputNames g))

/-- Position of a name in a list. -/
def idxOf (nm : String) : List String → Option Nat
  | [] => none
  | x :: xs => if x = nm then some 0 else (idxOf nm xs).map (· + 1)

theorem idxOf_eq_none (nm : String) (l : List String) (h : nm ∉ l) :
    idxOf nm l = none := by
  induction l with
  | nil => rfl
  | cons x xs ih =>
    unfold idxOf
    rw [if_neg (fun hx => h (by rw [← hx]; exact List.mem_cons_self x xs)),
      ih (fun hx => h (List.mem_cons_of_mem x hx))]
    rfl

theorem idxOf_some_eq (nm : String) (l : List String) (i : Nat)
    (h : idxOf nm l = some i) : ∃ hi : i < l.length, l.get ⟨i, hi⟩ = nm := by
  induction l generalizing i with
  | nil => cases h
  | cons x xs ih =>
    unfold idxOf at h
    split_ifs at h with hx
    · cases h
      exact ⟨Nat.succ_pos _, hx⟩
    · rcases Option.map_eq_some'.mp h with ⟨j, hj, hji⟩
      obtain ⟨hjl, hget⟩ := ih j hj
      subst hji
      exact ⟨by simpa using Nat.succ_lt_succ hjl, by simpa using hget⟩

theorem idxOf_get (l : List String) (hnd : l.Nodup) (i : Nat) (hi : i < l.length) :
    idxOf (l.get ⟨i, hi⟩) l = some i := by
  induction l generalizing i with
  | nil => cases hi
  | cons x xs ih =>
    cases i with
    | zero => simp [idxOf]
    | succ j =>
      have hj : j < xs.length := by simpa using hi
      have hxne : x ≠ xs.get ⟨j, hj⟩ := by
        intro hEq
        exact (List.nodup_cons.mp hnd).1 (hEq ▸ List.get_mem xs j hj)
      have hg : (x :: xs).get ⟨j + 1, hi⟩ = xs.get ⟨j, hj⟩ := rfl
      rw [hg]
      unfold idxOf
      rw [if_neg hxne, ih (List.nodup_cons.mp hnd).2 j hj]
      rfl

/-- The deterministic renaming of §4.5 canonical naming: the `i`-th
enumerated intermediate tensor goes to the `i`-th canonical name. -/
def canonMap (g : Graph) (nm : String) : String :=
  match idxOf nm (enumNames g) with
  | some i => tname i
  | none => nm

def renameBW (σ : String → String) : BitWidth → BitWidth
  | .static b => .static b
  | .dynamic t => .dynamic (σ t)

def renameOp (σ : String → String) : Op → Op
  | .quant p => .quant { p with bw := renameBW σ p.bw }
  | op => op

def renameNode (σ : String → String) (n : Node) : Node :=
  ⟨renameOp σ n.op, n.inputs.map σ, σ n.output⟩

/-- Apply a renaming to every name occurrence of the graph. -/
def renameG (σ : String → String) (g : Graph) : Graph :=
  { nodes := g.nodes.map (renameNode σ),
    inits := g.inits.map (fun p => (σ p.1, p.2)),
    inputs := g.inputs.map (fun p => (σ p.1, p.2)),
    outputs := g.outputs.map σ,
    shapes := g.shapes.map (fun p => (σ p.1, p.2)) }

/-- Every tensor name occurring in the graph (shape annotations aside). -/
def allN (g : Graph) : List String :=
  (g.nodes.map (fun n => n.inputs)).flatten ++ g.nodes.map (fun n => n.output)
    ++ g.inits.map Prod.fst ++ inputNames g ++ g.outputs

theorem output_mem_allN (g : Graph) (n : Node) (hn : n ∈ g.nodes) :
    n.output ∈ allN g := by
  unfold allN
  exact List.mem_append_left _ (List.mem_append_left _ (List.mem_append_left _
    (List.mem_append_right _ (List.mem_map_of_mem _ hn))))

theorem input_mem_allN (g : Graph) (n : Node) (hn : n ∈ g.nodes) (i : String)
    (hi : i ∈ n.inputs) : i ∈ allN g := by
  unfold allN
  refine List.mem_append_left _ (List.mem_append_left _ (List.mem_append_left _
    (List.mem_append_left _ ?_)))
  exact List.mem_flatten.mpr ⟨n.inputs, List.mem_map_of_mem _ hn, hi⟩

theorem initKey_mem_allN (g : Graph) (p : String × Value) (hp : p ∈ g.inits) :
    p.1 ∈ allN g := by
  unfold allN
  exact List.mem_append_left _ (List.mem_append_left _
    (List.mem_append_right _ (List.mem_map_of_mem _ hp)))

theorem enum_mem_allN (g : Graph) (o : String) (ho : o ∈ enumNames g) :
    o ∈ allN g := by
  unfold enumNames at ho
  have hmem := (List.mem_filter.mp ho).1
  unfold allN
  exact List.mem_append_left _ (List.mem_append_left _ (List.mem_append_left _
    (List.mem_append_right _ hmem)))

/-- The renaming is safe: the enumerated names are distinct and the
canonical names are fresh. -/
def canonCheckP (g : Graph) : Prop :=
  (enumNames g).Nodup ∧ ∀ i < (enumNames g).length, tname i ∉ allN g

instance (g : Graph) : Decidable (canonCheckP g) := by
  unfold canonCheckP
  exact instDecidableAnd

/-- Modelled from the spec: §4.5 canonical naming — deterministic
renaming of the intermediate tensors, guarded so that it never collides
with an existing name (on a collision the pass leaves the graph as it
is rather than corrupt it, §4.1 rewrite-then-commit discipline). -/
def canon (g : Graph) : Graph :=
  if canonCheckP g then renameG (canonMap g) g else g

theorem canonMap_injOn (g : Graph) (hc : canonCheckP g) :
    ∀ a ∈ allN g, ∀ b ∈ allN g, canonMap g a = canonMap g b → a = b := by
  intro a ha b hb h
  unfold canonMap at h
  cases hia : idxOf a (enumNames g) <;> cases hib : idxOf b (enumNames g) <;>
    simp only [hia, hib] at h
  · exact h
  · rename_i j
    obtain ⟨hj, -⟩ := idxOf_some_eq b _ j hib
    exact absurd (h ▸ ha) (hc.2 j hj)
  · rename_i i
    obtain ⟨hi, -⟩ := idxOf_some_eq a _ i hia
    exact absurd (h.symm ▸ hb) (hc.2 i hi)
  · rename_i i j
    obtain ⟨hi, hga⟩ := idxOf_some_eq a _ i hia
    obtain ⟨hj, hgb⟩ := idxOf_some_eq b _ j hib
    have hij : i = j := tname_inj h
    rw [← hga, ← hgb]
    subst hij
    rfl

theorem lk_rename {β : Type} (σ : String → String) (l : List (String × β))
    (k : String) (hkeys : ∀ p ∈ l, σ p.1 = σ k → p.1 = k) :
    lk (σ k) (l.map (fun p => (σ p.1, p.2))) = lk k l := by
  induction l with
  | nil => rfl
  | cons p ps ih =>
    show (if σ p.1 = σ k then some p.2 else _) = (if p.1 = k then some p.2 else _)
    by_cases hp : p.1 = k
    · rw [if_pos (by rw [hp]), if_pos hp]
    · rw [if_neg (fun hEq => hp (hkeys p (List.mem_cons_self p ps) hEq)), if_neg hp]
      exact ih (fun q hq => hkeys q (List.mem_cons_of_mem p hq))

theorem lkAll_rename (σ : String → String) (en : List (String × Value))
    (is : List String)
    (hkeys : ∀ i ∈ is, ∀ p ∈ en, σ p.1 = σ i → p.1 = i) :
    lkAll (en.map (fun p => (σ p.1, p.2))) (is.map σ) = lkAll en is := by
  induction is with
  | nil => rfl
  | cons i is' ih =>
    show (match lk (σ i) (en.map _), lkAll (en.map _) (is'.map σ) with
      | some v, some vs => some (v :: vs) | _, _ => none) = _
    rw [lk_rename σ en i (fun p hp => hkeys i (List.mem_cons_self i is') p hp),
      ih (fun j hj p hp => hkeys j (List.mem_cons_of_mem i hj) p hp)]
    rfl

theorem evalOp_rename (σ : String → String) (op : Op) (vals : List Value) :
    evalOp (renameOp σ op) vals = evalOp op vals := by
  cases op with
  | quant p =>
    obtain ⟨s, z, bw, sg, rm⟩ := p
    cases bw with
    | static b => rfl
    | dynamic t =>
      cases vals with
      | nil => rfl
      | cons v vs =>
        cases vs with
        | nil => rfl
        | cons w ws => rfl
  | identityOp => rfl
  | addOp => rfl
  | bipolarQuant s => rfl
  | multiThreshold thr os ob => rfl
  | trunc a c => rfl

theorem foldGuard_rename (g : Graph) (hc : canonCheckP g) (n : Node)
    (hn : n ∈ g.nodes) :
    foldGuard (g.inits.map (fun p => (canonMap g p.1, p.2)))
        (renameNode (canonMap g) n)
      = foldGuard g.inits n := by
  have hinj := canonMap_injOn g hc
  have hout : lk (canonMap g n.output) (g.inits.map (fun p => (canonMap g p.1, p.2)))
      = lk n.output g.inits :=
    lk_rename _ _ _ (fun p hp hEq =>
      hinj p.1 (initKey_mem_allN g p hp) n.output (output_mem_allN g n hn) hEq)
  have hins : lkAll (g.inits.map (fun p => (canonMap g p.1, p.2)))
        (n.inputs.map (canonMap g)) = lkAll g.inits n.inputs :=
    lkAll_rename _ _ _ (fun i hi p hp hEq =>
      hinj p.1 (initKey_mem_allN g p hp) i (input_mem_allN g n hn i hi) hEq)
  unfold foldGuard foldRes renameNode
  simp only [hout, hins, evalOp_rename]

/-- Canonical naming preserves constant-fold fixedness. -/
theorem sweepF_canon (x : Graph) (h : sweepF x = x) : sweepF (canon x) = canon x := by
  unfold canon
  split
  · rename_i hc
    rw [sweepF_eq_iff] at h ⊢
    intro n' hn'
    obtain ⟨n, hn, rfl⟩ := List.mem_map.mp hn'
    show foldGuard (x.inits.map _) (renameNode (canonMap x) n) = false
    rw [foldGuard_rename x hc n hn]
    exact h n hn
  · exact h


theorem graphOutput_mem_allN (g : Graph) (o : String) (ho : o ∈ g.outputs) :
    o ∈ allN g :=
  List.mem_append_right _ ho

theorem inputName_mem_allN (g : Graph) (o : String) (ho : o ∈ inputNames g) :
    o ∈ allN g :=
  List.mem_append_left _ (List.mem_append_right _ ho)

/-- The graph's names, as a finite set. -/
def allNFin (g : Graph) : Finset String := (allN g).toFinset

theorem outputs_subset_allNFin (g : Graph) : g.outputs.toFinset ⊆ allNFin g := by
  intro x hx
  exact List.mem_toFinset.mpr (graphOutput_mem_allN g x (List.mem_toFinset.mp hx))

theorem unionInputs_mem_allN (g : Graph) (x : String)
    (hx : x ∈ unionInputs g.nodes) : x ∈ allN g := by
  obtain ⟨n, hn, hi⟩ := (mem_unionInputs g.nodes x).mp hx
  exact input_mem_allN g n hn x hi

theorem liveStep_closure_sub (g : Graph) (s : Finset String) (hs : s ⊆ allNFin g) :
    liveStep g.nodes s ⊆ allNFin g := by
  intro x hx
  rcases Finset.mem_union.mp (liveStep_subset_union g.nodes s hx) with h | h
  · exact hs h
  · exact List.mem_toFinset.mpr (unionInputs_mem_allN g x h)

theorem mem_image_canonMap (g : Graph) (hc : canonCheckP g) (s : Finset String)
    (hs : s ⊆ allNFin g) (o : String) (ho : o ∈ allN g) :
    canonMap g o ∈ s.image (canonMap g) ↔ o ∈ s := by
  constructor
  · intro h
    obtain ⟨y, hy, hyo⟩ := Finset.mem_image.mp h
    have hyA : y ∈ allN g := List.mem_toFinset.mp (hs hy)
    rwa [← canonMap_injOn g hc y hyA o ho hyo]
  · exact fun h => Finset.mem_image_of_mem _ h

theorem image_cancel (g : Graph) (hc : canonCheckP g) (A B : Finset String)
    (hA : A ⊆ allNFin g) (hB : B ⊆ allNFin g)
    (h : A.image (canonMap g) = B.image (canonMap g)) : A = B := by
  apply Finset.ext
  intro x
  constructor
  · intro hx
    have hxA : x ∈ allN g := List.mem_toFinset.mp (hA hx)
    have : canonMap g x ∈ B.image (canonMap g) := h ▸ Finset.mem_image_of_mem _ hx
    exact (mem_image_canonMap g hc B hB x hxA).mp this
  · intro hx
    have hxB : x ∈ allN g := List.mem_toFinset.mp (hB hx)
    have : canonMap g x ∈ A.image (canonMap g) := h ▸ Finset.mem_image_of_mem _ hx
    exact (mem_image_canonMap g hc A hA x hxB).mp this

theorem liveStep_rename (g : Graph) (hc : canonCheckP g) (s : Finset String)
    (hs : s ⊆ allNFin g) :
    liveStep ((renameG (canonMap g) g).nodes) (s.image (canonMap g))
      = (liveStep g.nodes s).image (canonMap g) := by
  apply Finset.ext
  intro x
  constructor
  · intro hx
    rcases (mem_liveStep _ _ x).mp hx with hx | ⟨n', hn', hno, hxi⟩
    · exact Finset.image_subset_image (subset_liveStep g.nodes s) hx
    · obtain ⟨n, hn, rfl⟩ := List.mem_map.mp hn'
      have hnos : n.output ∈ s :=
        (mem_image_canonMap g hc s hs n.output (output_mem_allN g n hn)).mp hno
      obtain ⟨i, hi, rfl⟩ := List.mem_map.mp hxi
      exact Finset.mem_image_of_mem _
        ((mem_liveStep g.nodes s i).mpr (Or.inr ⟨n, hn, hnos, hi⟩))
  · intro hx
    obtain ⟨y, hy, rfl⟩ := Finset.mem_image.mp hx
    rcases (mem_liveStep g.nodes s y).mp hy with hy' | ⟨n, hn, hno, hyi⟩
    · exact subset_liveStep _ _ (Finset.mem_image_of_mem _ hy')
    · refine (mem_liveStep _ _ _).mpr (Or.inr
        ⟨renameNode (canonMap g) n, List.mem_map_of_mem _ hn, ?_, ?_⟩)
      · exact Finset.mem_image_of_mem _ hno
      · exact List.mem_map_of_mem _ hyi

theorem unionInputs_rename (σ : String → String) (ns : List Node) :
    unionInputs (ns.map (renameNode σ)) = (unionInputs ns).image σ := by
  apply Finset.ext
  intro x
  constructor
  · intro hx
    obtain ⟨n', hn', hi⟩ := (mem_unionInputs _ x).mp hx
    obtain ⟨n, hn, rfl⟩ := List.mem_map.mp hn'
    obtain ⟨i, hii, rfl⟩ := List.mem_map.mp hi
    exact Finset.mem_image_of_mem _ ((mem_unionInputs ns i).mpr ⟨n, hn, hii⟩)
  · intro hx
    obtain ⟨y, hy, rfl⟩ := Finset.mem_image.mp hx
    obtain ⟨n, hn, hii⟩ := (mem_unionInputs ns y).mp hy
    exact (mem_unionInputs _ _).mpr
      ⟨renameNode σ n, List.mem_map_of_mem _ hn, List.mem_map_of_mem _ hii⟩

theorem iterFix_liveStep_rename (g : Graph) (hc : canonCheckP g) :
    ∀ (fuel : Nat) (s : Finset String), s ⊆ allNFin g →
      iterFix (liveStep ((renameG (canonMap g) g).nodes)) fuel (s.image (canonMap g))
        = (iterFix (liveStep g.nodes) fuel s).image (canonMap g) := by
  intro fuel
  induction fuel with
  | zero => intro s _; rfl
  | succ f ih =>
    intro s hs
    unfold iterFix
    rw [liveStep_rename g hc s hs]
    by_cases h : liveStep g.nodes s = s
    · rw [if_pos (by rw [h]), if_pos h]
    · have hne : (liveStep g.nodes s).image (canonMap g) ≠ s.image (canonMap g) :=
        fun hEq => h (image_cancel g hc _ _ (liveStep_closure_sub g s hs) hs hEq)
      rw [if_neg hne, if_neg h]
      exact ih (liveStep g.nodes s) (liveStep_closure_sub g s hs)

theorem liveSet_rename (g : Graph) (hc : canonCheckP g) :
    liveSet (renameG (canonMap g) g).nodes (renameG (canonMap g) g).outputs
      = (liveSet g.nodes g.outputs).image (canonMap g) := by
  unfold liveSet
  have h1 : ((renameG (canonMap g) g).outputs).toFinset
      = g.outputs.toFinset.image (canonMap g) := by
    show (g.outputs.map (canonMap g)).toFinset = _
    apply Finset.ext
    intro x
    simp
  have h2 : (unionInputs (renameG (canonMap g) g).nodes).card
      = (unionInputs g.nodes).card := by
    show (unionInputs (g.nodes.map (renameNode (canonMap g)))).card = _
    rw [unionInputs_rename]
    apply Finset.card_image_of_injOn
    intro a ha b hb hEq
    exact canonMap_injOn g hc a (unionInputs_mem_allN g a (Finset.mem_coe.mp ha))
      b (unionInputs_mem_allN g b (Finset.mem_coe.mp hb)) hEq
  rw [h1, h2]
  exact iterFix_liveStep_rename g hc (unionInputs g.nodes).card g.outputs.toFinset
    (outputs_subset_allNFin g)

theorem dce_eq_of_all_live (z : Graph)
    (hall : ∀ n ∈ z.nodes, n.output ∈ liveSet z.nodes z.outputs) : dce z = z := by
  unfold dce
  rw [List.filter_eq_self.mpr (fun n hn => by simpa using hall n hn)]

theorem all_live_of_dce_eq (w : Graph) (h : dce w = w) :
    ∀ n ∈ w.nodes, n.output ∈ liveSet w.nodes w.outputs := by
  have hn := congrArg Graph.nodes h
  intro n hmem
  have := List.filter_eq_self.mp hn n hmem
  simpa using this

theorem dce_canon (x : Graph)
    (hall : ∀ n ∈ x.nodes, n.output ∈ liveSet x.nodes x.outputs) :
    dce (canon x) = canon x := by
  unfold canon
  split
  · rename_i hc
    apply dce_eq_of_all_live
    intro n' hn'
    obtain ⟨n, hn, rfl⟩ := List.mem_map.mp hn'
    show canonMap x n.output ∈ _
    rw [liveSet_rename x hc]
    exact Finset.mem_image_of_mem _ (hall n hn)
  · exact dce_eq_of_all_live x hall


theorem outputs_rename_fixed (g : Graph) :
    (renameG (canonMap g) g).outputs = g.outputs := by
  show g.outputs.map (canonMap g) = g.outputs
  refine (List.map_congr_left (fun o ho => ?_)).trans (List.map_id _)
  have hno : o ∉ enumNames g := by
    intro hmem
    have hcond := (List.mem_filter.mp hmem).2
    simp at hcond
    exact hcond.1 ho
  show canonMap g o = o
  unfold canonMap
  rw [idxOf_eq_none o _ hno]

theorem inputs_rename_fixed (g : Graph) :
    (renameG (canonMap g) g).inputs = g.inputs := by
  show g.inputs.map (fun p => (canonMap g p.1, p.2)) = g.inputs
  refine (List.map_congr_left (fun p hp => ?_)).trans (List.map_id _)
  have hno : p.1 ∉ enumNames g := by
    intro hmem
    have hcond := (List.mem_filter.mp hmem).2
    simp at hcond
    exact hcond.2 (List.mem_map_of_mem Prod.fst hp)
  show (canonMap g p.1, p.2) = p
  unfold canonMap
  rw [idxOf_eq_none _ _ hno]

theorem canonMap_enum_get (g : Graph) (hnd : (enumNames g).Nodup) (i : Nat)
    (hi : i < (enumNames g).length) :
    canonMap g ((enumNames g).get ⟨i, hi⟩) = tname i := by
  unfold canonMap
  rw [idxOf_get _ hnd i hi]

/-- Renaming maps the enumerated intermediates positionally. -/
theorem enum_rename (g : Graph) (hc : canonCheckP g) :
    enumNames (renameG (canonMap g) g) = (enumNames g).map (canonMap g) := by
  unfold enumNames
  have h1 : (renameG (canonMap g) g).nodes.map (fun n => n.output)
      = (g.nodes.map (fun n => n.output)).map (canonMap g) := by
    show (g.nodes.map (renameNode (canonMap g))).map (fun n => n.output) = _
    rw [List.map_map, List.map_map]
    rfl
  rw [h1, outputs_rename_fixed]
  have h2 : inputNames (renameG (canonMap g) g) = inputNames g := by
    unfold inputNames
    rw [inputs_rename_fixed]
  rw [h2]
  rw [List.filter_map]
  congr 1
  apply List.filter_congr
  intro o ho
  show (decide (canonMap g o ∉ g.outputs) && decide (canonMap g o ∉ inputNames g))
    = (decide (o ∉ g.outputs) && decide (o ∉ inputNames g))
  by_cases hoe : o ∈ enumNames g
  · obtain ⟨⟨i, hi⟩, hget⟩ := List.mem_iff_get.mp hoe
    have hσ : canonMap g o = tname i := by
      rw [← hget]
      exact canonMap_enum_get g hc.1 i hi
    have htn : tname i ∉ allN g := hc.2 i hi
    have h3 : tname i ∉ g.outputs := fun hmem => htn (graphOutput_mem_allN g _ hmem)
    have h4 : tname i ∉ inputNames g := fun hmem => htn (inputName_mem_allN g _ hmem)
    have h5 := (List.mem_filter.mp hoe).2
    have hLHS : (decide (canonMap g o ∉ g.outputs)
        && decide (canonMap g o ∉ inputNames g)) = true := by
      rw [hσ]
      simp [h3, h4]
    rw [hLHS, h5]
  · have hσ : canonMap g o = o := by
      unfold canonMap
      rw [idxOf_eq_none _ _ hoe]
    rw [hσ]

theorem tname_zero_mem (g : Graph) (hc : canonCheckP g)
    (hk : 0 < (enumNames g).length) :
    tname 0 ∈ enumNames (renameG (canonMap g) g) := by
  rw [enum_rename g hc]
  have hget := canonMap_enum_get g hc.1 0 hk
  rw [← hget]
  exact List.mem_map_of_mem _ (List.get_mem _ 0 hk)

theorem renameOp_id (σ : String → String) (hid : ∀ nm, σ nm = nm) (op : Op) :
    renameOp σ op = op := by
  cases op with
  | quant p =>
    obtain ⟨s, z, bw, sg, rm⟩ := p
    cases bw with
    | static b => rfl
    | dynamic t =>
      show Op.quant ⟨s, z, .dynamic (σ t), sg, rm⟩ = Op.quant ⟨s, z, .dynamic t, sg, rm⟩
      rw [hid t]
  | identityOp => rfl
  | addOp => rfl
  | bipolarQuant s => rfl
  | multiThreshold thr os ob => rfl
  | trunc a c => rfl

theorem renameNode_id (σ : String → String) (hid : ∀ nm, σ nm = nm) (n : Node) :
    renameNode σ n = n := by
  unfold renameNode
  rw [renameOp_id σ hid, hid n.output,
    (List.map_congr_left (fun a _ => hid a)).trans (List.map_id _)]

theorem renameG_id (σ : String → String) (hid : ∀ nm, σ nm = nm) (g : Graph) :
    renameG σ g = g := by
  have hp : ∀ (β : Type) (l : List (String × β)),
      l.map (fun p => (σ p.1, p.2)) = l := by
    intro β l
    refine (List.map_congr_left (fun p _ => ?_)).trans (List.map_id _)
    rw [hid p.1]
    rfl
  have h1 : g.nodes.map (renameNode σ) = g.nodes :=
    (List.map_congr_left (fun n _ => renameNode_id σ hid n)).trans (List.map_id _)
  have h2 : g.outputs.map σ = g.outputs :=
    (List.map_congr_left (fun o _ => hid o)).trans (List.map_id _)
  unfold renameG
  rw [h1, h2, hp _ g.inits, hp _ g.inputs, hp _ g.shapes]

/-- Modelled from the spec: §4.2/§4.5 shape inference as a pass: it
populates the shape annotations from the computed shape map. -/
def inferShapes (g : Graph) : Graph := { g with shapes := computeShapes g }

/-- Modelled from the spec: §4.5 the cleanup pipeline — the fixed
ordered sequence constant folding, dead-node elimination, canonical
naming, shape inference. -/
def run_pipeline (g : Graph) : Graph := inferShapes (canon (dce (constFold g)))

theorem inferShapes_inferShapes (y : Graph) :
    inferShapes (inferShapes y) = inferShapes y := rfl

theorem sweepF_inferShapes (y : Graph) (h : sweepF y = y) :
    sweepF (inferShapes y) = inferShapes y := by
  rw [sweepF_eq_iff] at h ⊢
  exact h

/-- The canonical-naming pass is a no-op on the pipeline's result: after
one renaming, either the enumerated intermediates already carry the
canonical names (so the freshness guard rejects a second renaming), or
nothing was renamed at all. -/
theorem canon_pipeline (h : Graph) :
    canon (inferShapes (canon h)) = inferShapes (canon h) := by
  by_cases hc : canonCheckP h
  · by_cases hk : (enumNames h).length = 0
    · have hid : ∀ nm, canonMap h nm = nm := by
        intro nm
        unfold canonMap
        rw [idxOf_eq_none nm _ (by
          intro hmem
          rw [List.length_eq_zero.mp hk] at hmem
          cases hmem)]
      have hch : canon h = h := by
        unfold canon
        rw [if_pos hc]
        exact renameG_id _ hid h
      rw [hch]
      unfold canon
      rw [if_pos (show canonCheckP (inferShapes h) from hc)]
      exact renameG_id _ (show ∀ nm, canonMap (inferShapes h) nm = nm from hid)
        (inferShapes h)
    · have hkpos : 0 < (enumNames h).length := Nat.pos_of_ne_zero hk
      have hch : canon h = renameG (canonMap h) h := by
        unfold canon
        rw [if_pos hc]
      rw [hch]
      have htmem : tname 0 ∈ enumNames (renameG (canonMap h) h) :=
        tname_zero_mem h hc hkpos
      have hnc : ¬ canonCheckP (inferShapes (renameG (canonMap h) h)) := by
        intro hc'
        have htmem' : tname 0 ∈ enumNames (inferShapes (renameG (canonMap h) h)) :=
          htmem
        have hlen : 0 < (enumNames (inferShapes (renameG (canonMap h) h))).length :=
          List.length_pos_of_mem htmem'
        exact hc'.2 0 hlen (enum_mem_allN _ _ htmem')
      unfold canon
      rw [if_neg hnc]
  · have hch : canon h = h := by
      unfold canon
      rw [if_neg hc]
    rw [hch]
    unfold canon
    rw [if_neg (show ¬ canonCheckP (inferShapes h) from hc)]

/-- C6.  The cleanup pipeline — constant folding, dead-node elimination,
canonical naming, shape inference — is idempotent: running it a second
time returns a structurally equal graph. -/
theorem c6_pipeline_idempotent (g : Graph) :
    run_pipeline (run_pipeline g) = run_pipeline g := by
  set x := dce (constFold g) with hx
  have hs1 : sweepF (constFold g) = constFold g := sweepF_constFold g
  have hs2 : sweepF x = x := sweepF_dce (constFold g) hs1
  have hdx : dce x = x := by rw [hx]; exact dce_dce (constFold g)
  have hall := all_live_of_dce_eq x hdx
  have hp : run_pipeline g = inferShapes (canon x) := rfl
  have hs3 : sweepF (canon x) = canon x := sweepF_canon x hs2
  have hs4 : sweepF (run_pipeline g) = run_pipeline g := by
    rw [hp]
    exact sweepF_inferShapes (canon x) hs3
  have h1 : constFold (run_pipeline g) = run_pipeline g := constFold_of_fixed _ hs4
  have hd3 : dce (canon x) = canon x := dce_canon x hall
  have hall3 := all_live_of_dce_eq (canon x) hd3
  have h2 : dce (run_pipeline g) = run_pipeline g := by
    rw [hp]
    exact dce_eq_of_all_live (inferShapes (canon x)) hall3
  have h3 : canon (run_pipeline g) = run_pipeline g := by
    rw [hp]
    exact canon_pipeline x
  have h4 : inferShapes (run_pipeline g) = run_pipeline g := by
    rw [hp]
    exact inferShapes_inferShapes (canon x)
  show inferShapes (canon (dce (constFold (run_pipeline g)))) = run_pipeline g
  rw [h1, h2, h3, h4]

end Spec2Proof
